import Mathlib

/-!
Verification of the XML-to-graph extractor of the data-engineering coding
challenge repository (`solution/utils/xml_graph_parser.py`).

The XML data model follows Python's `xml.etree.ElementTree`: an element has a
tag, an ordered attribute list, an optional text payload and an ordered list
of child elements.  All tags in scope are qualified under the single UniProt
namespace (`http://uniprot.org/uniprot`); since every lookup performed by the
extractor uses that same namespace, tags are modelled by their local names.

The graph model follows `networkx.DiGraph` as used by the extractor: nodes are
added with a synthetic integer id, a `name` label and an `attr` string; edges
are directed and carry an `attr` relation label.  Insertion order is kept.

Python exceptions raised during extraction (the explicit `raise Exception` for
a missing accession, the `AttributeError` on `citation.attrib` when `citation`
is `None`, and the `TypeError` when iterating a `None` `authorList`) are
modelled by an `Except` error type; any raised exception aborts the whole
`parse` call, so the partially built state is never observable.
-/

set_option autoImplicit false

namespace UniProt

/-- An `xml.etree.ElementTree` element: tag (namespace-local name), ordered
attributes, text payload of the element, ordered children. -/
inductive XML where
  | mk (tag : String) (attrib : List (String × String)) (text : Option String)
      (children : List XML)

def XML.tag : XML → String
  | .mk t _ _ _ => t

def XML.attrib : XML → List (String × String)
  | .mk _ a _ _ => a

def XML.text : XML → Option String
  | .mk _ _ x _ => x

def XML.children : XML → List XML
  | .mk _ _ _ c => c

mutual

/-- All proper descendants of an element, in document (preorder) order; this is
the iteration order of ElementTree's `.//` descendant search. -/
def XML.desc : XML → List XML
  | .mk _ _ _ cs => XML.descList cs

def XML.descList : List XML → List XML
  | [] => []
  | c :: cs => c :: (XML.desc c ++ XML.descList cs)

end

/-- `x.findall(".//uniprot:t", ns)`: all descendants with the given tag, in
document order. -/
def findall (x : XML) (t : String) : List XML :=
  x.desc.filter (fun c => c.tag == t)

/-- `x.find(".//uniprot:t", ns)`: the first descendant with the given tag, or
`None`. -/
def find1 (x : XML) (t : String) : Option XML :=
  (findall x t).head?

/-- The direct children of `x` carrying tag `t` (one path step). -/
def childTag (x : XML) (t : String) : List XML :=
  x.children.filter (fun c => c.tag == t)

/-- `x.get(k)`: attribute lookup, `None` when absent. -/
def XML.get (x : XML) (k : String) : Option String :=
  (x.attrib.find? (fun kv => kv.1 == k)).map (fun kv => kv.2)

/-- Python's f-string rendering of a `str`-or-`None` value. -/
def pyStrOpt : Option String → String
  | some s => s
  | none => "None"

/-- `"\n".join(f"{key}: {value}" for key, value in attrib.items())`. -/
def attribJoin (l : List (String × String)) : String :=
  String.intercalate "\n" (l.map (fun kv => kv.1 ++ ": " ++ kv.2))

/-- A networkx node as created by `graph.add_node(id, name=..., attr=...)`. -/
structure Node where
  id : Nat
  name : String
  attr : String
  deriving DecidableEq, Repr

/-- A networkx directed edge as created by `graph.add_edge(src, tgt, attr=...)`. -/
structure Edge where
  src : Nat
  tgt : Nat
  attr : String
  deriving DecidableEq, Repr

/-- The directed attributed graph, nodes and edges in insertion order. -/
structure Graph where
  nodes : List Node
  edges : List Edge
  deriving DecidableEq, Repr

def Graph.addNode (g : Graph) (i : Nat) (name attr : String) : Graph :=
  { g with nodes := g.nodes ++ [⟨i, name, attr⟩] }

def Graph.addEdge (g : Graph) (s t : Nat) (attr : String) : Graph :=
  { g with edges := g.edges ++ [⟨s, t, attr⟩] }

/-- Number of inbound edges of the node with id `i`. -/
def Graph.inDeg (g : Graph) (i : Nat) : Nat :=
  (g.edges.filter (fun e => e.tgt == i)).length

/-- Number of outbound edges of the node with id `i`. -/
def Graph.outDeg (g : Graph) (i : Nat) : Nat :=
  (g.edges.filter (fun e => e.src == i)).length

/-- Mutable extractor state: the `itertools.count()` node-id counter and the
graph under construction. -/
structure PState where
  counter : Nat
  graph : Graph
  deriving DecidableEq, Repr

/-- `generate_node_id`: `next(self.node_id)` — returns the current counter
value and advances it. -/
def generate_node_id (s : PState) : Nat × PState :=
  (s.counter, ⟨s.counter + 1, s.graph⟩)

/-- The exceptions the extractor can raise: the explicit `raise Exception` of
`parse_protein_id`, the `AttributeError` on `citation.attrib` when a reference
has no `citation` descendant, and the `TypeError` of iterating `None` when a
reference has no `authorList` descendant. -/
inductive ParseError where
  | missingAccession
  | noneCitation
  | noneAuthorList
  deriving DecidableEq, Repr

/-- Allocate a fresh id, add a node with it, and add an edge from `parent` to
it: the common three-step pattern of every `parse_*` helper. -/
def addChild (s : PState) (parent : Nat) (name attr rel : String) : PState :=
  let idp := generate_node_id s
  ⟨idp.2.counter, (idp.2.graph.addNode idp.1 name attr).addEdge parent idp.1 rel⟩

/-- `parse_protein_id`: the text of the first `accession` descendant of the
entry; raises when the entry has no `accession` descendant. -/
def parse_protein_id (entry : XML) : Except ParseError (Option String) :=
  match findall entry "accession" with
  | a :: _ => .ok a.text
  | [] => .error .missingAccession

/-- The document-root lookup
`root.find('.//uniprot:protein/uniprot:recommendedName/uniprot:fullName')`. -/
def find_full_name (root : XML) : Option XML :=
  ((findall root "protein").flatMap (fun p =>
    (childTag p "recommendedName").flatMap (fun r => childTag r "fullName"))).head?

/-- The matches of `.//uniprot:gene/uniprot:name[@type=ty]` from the root. -/
def findall_gene_name (root : XML) (ty : String) : List XML :=
  (findall root "gene").flatMap (fun g =>
    (childTag g "name").filter (fun n => n.get "type" == some ty))

/-- `root.find('.//uniprot:gene/uniprot:name[@type="primary"]')`. -/
def find_primary_name (root : XML) : Option XML :=
  (findall_gene_name root "primary").head?

/-- `root.find('.//uniprot:organism/uniprot:name[@type="scientific"]')`. -/
def find_scientific_name (root : XML) : Option XML :=
  ((findall root "organism").flatMap (fun o =>
    (childTag o "name").filter (fun n => n.get "type" == some "scientific"))).head?

/-- `root.find('.//uniprot:organism/uniprot:dbReference[@type="NCBI Taxonomy"]')`. -/
def find_taxonomy (root : XML) : Option XML :=
  ((findall root "organism").flatMap (fun o =>
    (childTag o "dbReference").filter (fun n => n.get "type" == some "NCBI Taxonomy"))).head?

/-- `parse_full_name`: looks `fullName` up from the document root (not the
current entry) and, when found, adds a `FullName` child of `parent`. -/
def parse_full_name (root : XML) (parent : Nat) (s : PState) : PState :=
  match find_full_name root with
  | some full_name => addChild s parent "FullName" ("name: " ++ pyStrOpt full_name.text) "HAS_FULL_NAME"
  | none => s

/-- `parse_primary_name`: primary gene name, looked up from the document root. -/
def parse_primary_name (root : XML) (parent : Nat) (s : PState) : PState :=
  match find_primary_name root with
  | some primary_name =>
      addChild s parent "Gene" ("name: " ++ pyStrOpt primary_name.text) ("FROM_GENE\nstatus: primary")
  | none => s

/-- `parse_synonym_name`: all synonym gene names, looked up from the document
root; one `Gene` child of `parent` per match. -/
def parse_synonym_name (root : XML) (parent : Nat) (s : PState) : PState :=
  (findall_gene_name root "synonym").foldl
    (fun s synonym_name =>
      addChild s parent "Gene" ("name: " ++ pyStrOpt synonym_name.text) ("FROM_GENE\nstatus: synonym"))
    s

/-- `parse_scientific_name`: scientific organism name and NCBI Taxonomy id,
both looked up from the document root; a single `Organism` child of `parent`
is added only when both are present. -/
def parse_scientific_name (root : XML) (parent : Nat) (s : PState) : PState :=
  match find_scientific_name root, find_taxonomy root with
  | some scientific_name, some ncbi_taxonomy_id =>
      addChild s parent "Organism"
        ("name: " ++ pyStrOpt scientific_name.text ++ "\ntaxonomy_id: " ++ pyStrOpt (ncbi_taxonomy_id.get "id"))
        "IN_ORGANISM"
  | _, _ => s

/-- The inner author loop of `parse_references`: `for author in author_list`
iterates all direct children of the `authorList` element. -/
def parse_authors (ref_node_id : Nat) (authors : List XML) (s : PState) : PState :=
  authors.foldl
    (fun s author =>
      addChild s ref_node_id "Author" ("name: " ++ pyStrOpt (author.get "name")) "HAS_AUTHOR")
    s

/-- One iteration of the `for ref in references` loop of `parse_references`.
In Python the missing-`citation` `AttributeError` fires after the reference id
has been drawn from the counter; since the exception aborts the whole parse
and the state is discarded, the error cases carry no state. -/
def parse_one_reference (parent : Nat) (ref : XML) (s : PState) : Except ParseError PState :=
  match find1 ref "citation" with
  | none => .error .noneCitation
  | some citation =>
    let s1 := addChild s parent "Reference" (attribJoin citation.attrib) "HAS_REFERENCE"
    match find1 ref "authorList" with
    | none => .error .noneAuthorList
    | some author_list => .ok (parse_authors s.counter author_list.children s1)

/-- `parse_references`: one `Reference` child of `parent` per `reference`
descendant of the entry, each with its `Author` children. -/
def parse_references (entry : XML) (parent : Nat) (s : PState) : Except ParseError PState :=
  (findall entry "reference").foldlM (fun s ref => parse_one_reference parent ref s) s

/-- `parse_feature`: one `Feature` child of `parent` per `feature` descendant
of the entry; the edge label is `HAS_REFERENCE`, as in the source. -/
def parse_feature (entry : XML) (parent : Nat) (s : PState) : PState :=
  (findall entry "feature").foldl
    (fun s fet => addChild s parent "Feature" (attribJoin fet.attrib) "HAS_REFERENCE")
    s

/-- `parse_protein`: allocates the protein node id, parses the accession
(raising when absent), then runs the per-entry helpers in source order. -/
def parse_protein (root : XML) (entry : XML) (s : PState) : Except ParseError PState :=
  let idp := generate_node_id s
  match parse_protein_id entry with
  | .error e => .error e
  | .ok acc =>
    let s1 : PState := ⟨idp.2.counter, idp.2.graph.addNode idp.1 "Protein" ("id: " ++ pyStrOpt acc)⟩
    let s2 := parse_full_name root idp.1 s1
    let s3 := parse_primary_name root idp.1 s2
    let s4 := parse_synonym_name root idp.1 s3
    let s5 := parse_scientific_name root idp.1 s4
    match parse_references entry idp.1 s5 with
    | .error e => .error e
    | .ok s6 => .ok (parse_feature entry idp.1 s6)

/-- `parse`: runs `parse_protein` on every `entry` descendant of the document
root, starting from a fresh counter and an empty graph, and returns the graph. -/
def parse (root : XML) : Except ParseError Graph :=
  match (findall root "entry").foldlM (fun s entry => parse_protein root entry s)
      (⟨0, ⟨[], []⟩⟩ : PState) with
  | .ok s => .ok s.graph
  | .error e => .error e

/-!
Functional specification layer: each entry contributes a contiguous segment of
nodes and edges, computed by the `…D` functions below; `parse` is proved equal
to either the first error in document order or the concatenation of the
segments (`parse_eq`).
-/

/-- A delta: the nodes and edges a parsing step appends to the graph.  The
step consumes exactly one counter value per node. -/
abbrev Delta := List Node × List Edge

/-- Append a delta to a state: the normal form of every successful step. -/
def applyD (s : PState) (d : Delta) : PState :=
  ⟨s.counter + d.1.length, ⟨s.graph.nodes ++ d.1, s.graph.edges ++ d.2⟩⟩

/-- Concatenation of two deltas. -/
def dapp (d d' : Delta) : Delta := (d.1 ++ d'.1, d.2 ++ d'.2)

/-- Delta of a single `addChild` call at counter value `c`. -/
def childD (parent c : Nat) (name attr rel : String) : Delta :=
  ([⟨c, name, attr⟩], [⟨parent, c, rel⟩])

/-- Nodes of a block of consecutive `addChild` calls starting at id `c`. -/
def blockN (c : Nat) (name : String) : List String → List Node
  | [] => []
  | a :: as => ⟨c, name, a⟩ :: blockN (c + 1) name as

/-- Edges of a block of consecutive `addChild` calls starting at id `c`. -/
def blockE (parent c : Nat) (rel : String) : List String → List Edge
  | [] => []
  | _ :: as => ⟨parent, c, rel⟩ :: blockE parent (c + 1) rel as

/-- Delta of a block of consecutive `addChild` calls. -/
def blockD (parent c : Nat) (name rel : String) (attrs : List String) : Delta :=
  (blockN c name attrs, blockE parent c rel attrs)

/-- Delta of an optional single `addChild` call. -/
def optD (parent c : Nat) (name rel : String) : Option String → Delta
  | none => ([], [])
  | some a => childD parent c name a rel

/-- Data extracted from one (well-formed) `reference` element: the citation
attribute blob and the attribute blobs of its authors. -/
def refDataT (r : XML) : String × List String :=
  (((find1 r "citation").map (fun c => attribJoin c.attrib)).getD "",
   ((find1 r "authorList").map
      (fun al => al.children.map (fun a => "name: " ++ pyStrOpt (a.get "name")))).getD [])

/-- Delta of one reference block: the `Reference` node at id `c` with its edge
from `parent`, followed by its `Author` children at ids `c+1, …`. -/
def refD (parent c : Nat) (rd : String × List String) : Delta :=
  dapp (childD parent c "Reference" rd.1 "HAS_REFERENCE")
       (blockD c (c + 1) "Author" "HAS_AUTHOR" rd.2)

/-- Delta of the whole references loop. -/
def refsD (parent c : Nat) : List (String × List String) → Delta
  | [] => ([], [])
  | rd :: rds => dapp (refD parent c rd) (refsD parent (c + 1 + rd.2.length) rds)

/-- Protein node attribute of an entry, as rendered by the source f-string. -/
def proteinAttr (e : XML) : String :=
  "id: " ++ pyStrOpt (((findall e "accession").head?).bind XML.text)

/-- Attribute of the (document-root scoped) `FullName` node, when created. -/
def fullNameAttr (root : XML) : Option String :=
  (find_full_name root).map (fun fn => "name: " ++ pyStrOpt fn.text)

/-- Attribute of the (document-root scoped) primary `Gene` node, when created. -/
def primaryAttr (root : XML) : Option String :=
  (find_primary_name root).map (fun n => "name: " ++ pyStrOpt n.text)

/-- Attributes of the (document-root scoped) synonym `Gene` nodes. -/
def synonymAttrs (root : XML) : List String :=
  (findall_gene_name root "synonym").map (fun n => "name: " ++ pyStrOpt n.text)

/-- Attribute of the (document-root scoped) `Organism` node: present exactly
when both the scientific name and the NCBI Taxonomy reference are found. -/
def organismAttr (root : XML) : Option String :=
  match find_scientific_name root, find_taxonomy root with
  | some sci, some tax =>
      some ("name: " ++ pyStrOpt sci.text ++ "\ntaxonomy_id: " ++ pyStrOpt (tax.get "id"))
  | _, _ => none

/-- Attributes of the `Feature` nodes of an entry. -/
def featureAttrs (e : XML) : List String :=
  (findall e "feature").map (fun f => attribJoin f.attrib)

/-- Delta of one whole entry, starting at counter value `c` (the protein id). -/
def entryD (root e : XML) (c : Nat) : Delta :=
  let d0 : Delta := ([⟨c, "Protein", proteinAttr e⟩], [])
  let c1 := c + 1
  let d1 := optD c c1 "FullName" "HAS_FULL_NAME" (fullNameAttr root)
  let c2 := c1 + d1.1.length
  let d2 := optD c c2 "Gene" ("FROM_GENE\nstatus: primary") (primaryAttr root)
  let c3 := c2 + d2.1.length
  let d3 := blockD c c3 "Gene" ("FROM_GENE\nstatus: synonym") (synonymAttrs root)
  let c4 := c3 + d3.1.length
  let d4 := optD c c4 "Organism" "IN_ORGANISM" (organismAttr root)
  let c5 := c4 + d4.1.length
  let d5 := refsD c c5 ((findall e "reference").map refDataT)
  let c6 := c5 + d5.1.length
  let d6 := blockD c c6 "Feature" "HAS_REFERENCE" (featureAttrs e)
  dapp d0 (dapp d1 (dapp d2 (dapp d3 (dapp d4 (dapp d5 d6)))))

/-- Delta of a list of entries. -/
def entriesD (root : XML) (c : Nat) : List XML → Delta
  | [] => ([], [])
  | e :: es => dapp (entryD root e c) (entriesD root (c + (entryD root e c).1.length) es)

/-- The graph `parse` produces on a document with no malformed entry. -/
def specGraph (root : XML) : Graph :=
  ⟨(entriesD root 0 (findall root "entry")).1, (entriesD root 0 (findall root "entry")).2⟩

/-- The error one reference produces, if any: a missing `citation` descendant
is hit before a missing `authorList` descendant. -/
def refErr (r : XML) : Option ParseError :=
  match find1 r "citation" with
  | none => some .noneCitation
  | some _ =>
    match find1 r "authorList" with
    | none => some .noneAuthorList
    | some _ => none

/-- First `some` produced by `f` along a list. -/
def firstSome {α β : Type} (f : α → Option β) : List α → Option β
  | [] => none
  | a :: as =>
    match f a with
    | some b => some b
    | none => firstSome f as

/-- The error one entry produces, if any: the accession is parsed before the
references. -/
def entryErr (e : XML) : Option ParseError :=
  match findall e "accession" with
  | [] => some .missingAccession
  | _ :: _ => firstSome refErr (findall e "reference")

/-- The error the whole document produces, if any: entries fail in document
order. -/
def docErr (root : XML) : Option ParseError :=
  firstSome entryErr (findall root "entry")

/-- A delta is `seg1` at `c` when its node ids are the contiguous range
starting at `c` and its edge targets are exactly its node ids, in order. -/
def seg1 (d : Delta) (c : Nat) : Prop :=
  d.1.map Node.id = List.range' c d.1.length ∧ d.2.map Edge.tgt = d.1.map Node.id

/-- The body of an entry delta: everything after the protein node. -/
def entryRest (root e : XML) (c : Nat) : Delta :=
  let c1 := c + 1
  let d1 := optD c c1 "FullName" "HAS_FULL_NAME" (fullNameAttr root)
  let c2 := c1 + d1.1.length
  let d2 := optD c c2 "Gene" ("FROM_GENE\nstatus: primary") (primaryAttr root)
  let c3 := c2 + d2.1.length
  let d3 := blockD c c3 "Gene" ("FROM_GENE\nstatus: synonym") (synonymAttrs root)
  let c4 := c3 + d3.1.length
  let d4 := optD c c4 "Organism" "IN_ORGANISM" (organismAttr root)
  let c5 := c4 + d4.1.length
  let d5 := refsD c c5 ((findall e "reference").map refDataT)
  let c6 := c5 + d5.1.length
  let d6 := blockD c c6 "Feature" "HAS_REFERENCE" (featureAttrs e)
  dapp d1 (dapp d2 (dapp d3 (dapp d4 (dapp d5 d6))))

/-- The attributes of the nodes named `nm`, in insertion order. -/
def namedAttrs (nm : String) (ns : List Node) : List String :=
  (ns.filter (fun n => n.name == nm)).map Node.attr

/-- The direct children of the `authorList` element of a reference, i.e. the
elements the author loop iterates over. -/
def authorsOf (r : XML) : List XML :=
  ((find1 r "authorList").map XML.children).getD []

/-- An edge is well-typed with respect to a node list when its endpoints are
nodes of the list and its relation label matches the target node kind, with
the source node kind the structural parent kind. -/
def edgeTyped (ns : List Node) (ed : Edge) : Prop :=
  ∃ sn ∈ ns, sn.id = ed.src ∧ ∃ tn ∈ ns, tn.id = ed.tgt ∧
    ((tn.name = "FullName" ∧ ed.attr = "HAS_FULL_NAME" ∧ sn.name = "Protein")
     ∨ (tn.name = "Gene"
         ∧ (ed.attr = "FROM_GENE\nstatus: primary" ∨ ed.attr = "FROM_GENE\nstatus: synonym")
         ∧ sn.name = "Protein")
     ∨ (tn.name = "Organism" ∧ ed.attr = "IN_ORGANISM" ∧ sn.name = "Protein")
     ∨ (tn.name = "Reference" ∧ ed.attr = "HAS_REFERENCE" ∧ sn.name = "Protein")
     ∨ (tn.name = "Author" ∧ ed.attr = "HAS_AUTHOR" ∧ sn.name = "Reference")
     ∨ (tn.name = "Feature" ∧ ed.attr = "HAS_REFERENCE" ∧ sn.name = "Protein"))

/-! Concrete sample documents, used to evaluate the theorems on real inputs. -/

/-- An `accession` element with the given text. -/
def accEl (t : String) : XML := .mk "accession" [] (some t) []

/-- Two accession-only entries. -/
def wDoc : XML := .mk "uniprot" [] none
  [.mk "entry" [] none [accEl "P1"], .mk "entry" [] none [accEl "P2"]]

/-- The graph `parse` produces on `wDoc`. -/
def wGraph : Graph := ⟨[⟨0, "Protein", "id: P1"⟩, ⟨1, "Protein", "id: P2"⟩], []⟩

/-- First entry has only an accession; the second also carries a
`protein/recommendedName/fullName` element. -/
def c9e1 : XML := .mk "entry" [] none [accEl "P12345"]

def c9e2 : XML := .mk "entry" [] none
  [accEl "Q00001",
   .mk "protein" [] none
     [.mk "recommendedName" [] none [.mk "fullName" [] (some "Some protein") []]]]

def c9doc : XML := .mk "uniprot" [] none [c9e1, c9e2]

/-- The graph `parse` produces on `c9doc`: thanks to the document-root
lookups, even the accession-only first entry receives a `FullName` child. -/
def c9graph : Graph :=
  ⟨[⟨0, "Protein", "id: P12345"⟩, ⟨1, "FullName", "name: Some protein"⟩,
    ⟨2, "Protein", "id: Q00001"⟩, ⟨3, "FullName", "name: Some protein"⟩],
   [⟨0, 1, "HAS_FULL_NAME"⟩, ⟨2, 3, "HAS_FULL_NAME"⟩]⟩

/-- First entry is well-formed except for a citation-less reference; the
second entry lacks an accession. -/
def c3doc : XML := .mk "uniprot" [] none
  [.mk "entry" [] none [accEl "A", .mk "reference" [] none []],
   .mk "entry" [] none []]

/-- A single entry that lacks an accession and contains a citation-less
reference. -/
def c6doc : XML := .mk "uniprot" [] none
  [.mk "entry" [] none [.mk "reference" [] none []]]

/-- A single entry with no accession at all. -/
def w3doc : XML := .mk "uniprot" [] none [.mk "entry" [] none []]

/-- A single well-accessioned entry with a citation-less reference. -/
def w6doc : XML := .mk "uniprot" [] none
  [.mk "entry" [] none [accEl "A", .mk "reference" [] none []]]

/-- A reference with a two-attribute citation and three authors, the third of
which has no `name` attribute. -/
def w5ref : XML := .mk "reference" [] none
  [.mk "citation" [("type", "journal article"), ("date", "2001")] none
     [.mk "authorList" [] none
        [.mk "person" [("name", "Alice")] none [],
         .mk "person" [("name", "Bob")] none [],
         .mk "person" [] none []]]]

def w5entry : XML := .mk "entry" [] none [accEl "P1", w5ref]

def w5doc : XML := .mk "uniprot" [] none [w5entry]

/-- The graph `parse` produces on `w5doc`. -/
def w5graph : Graph :=
  ⟨[⟨0, "Protein", "id: P1"⟩, ⟨1, "Reference", "type: journal article\ndate: 2001"⟩,
    ⟨2, "Author", "name: Alice"⟩, ⟨3, "Author", "name: Bob"⟩, ⟨4, "Author", "name: None"⟩],
   [⟨0, 1, "HAS_REFERENCE"⟩, ⟨1, 2, "HAS_AUTHOR"⟩, ⟨1, 3, "HAS_AUTHOR"⟩,
    ⟨1, 4, "HAS_AUTHOR"⟩]⟩

/-- An entry with a full organism declaration. -/
def w7doc : XML := .mk "uniprot" [] none
  [.mk "entry" [] none
    [accEl "P1",
     .mk "organism" [] none
       [.mk "name" [("type", "scientific")] (some "Homo sapiens") [],
        .mk "dbReference" [("type", "NCBI Taxonomy"), ("id", "9606")] none []]]]

/-- The graph `parse` produces on `w7doc`. -/
def w7graph : Graph :=
  ⟨[⟨0, "Protein", "id: P1"⟩, ⟨1, "Organism", "name: Homo sapiens\ntaxonomy_id: 9606"⟩],
   [⟨0, 1, "IN_ORGANISM"⟩]⟩

/-- An entry with one feature element. -/
def w8doc : XML := .mk "uniprot" [] none
  [.mk "entry" [] none
    [accEl "P1", .mk "feature" [("type", "chain"), ("id", "PRO_1")] none []]]

/-- The graph `parse` produces on `w8doc`. -/
def w8graph : Graph :=
  ⟨[⟨0, "Protein", "id: P1"⟩, ⟨1, "Feature", "type: chain\nid: PRO_1"⟩],
   [⟨0, 1, "HAS_REFERENCE"⟩]⟩

/-- A document whose only entry has a single `accession` child. -/
def w9e : XML := .mk "entry" [] none [.mk "accession" [] (some "P12345") []]

def w9doc : XML := .mk "uniprot" [] none [w9e]

/-! Refinement: every parser function is the application of its delta. -/

theorem applyD_applyD (s : PState) (d d' : Delta) :
    applyD (applyD s d) d' = applyD s (dapp d d') := by
  simp [applyD, dapp, Nat.add_assoc]

theorem applyD_nil (s : PState) : applyD s ([], []) = s := by
  simp [applyD]

theorem dapp_assoc (a b c : Delta) : dapp (dapp a b) c = dapp a (dapp b c) := by
  simp [dapp]

theorem dapp_nil_left (d : Delta) : dapp ([], []) d = d := by
  simp [dapp]

theorem addChild_eq (s : PState) (p : Nat) (nm a rel : String) :
    addChild s p nm a rel = applyD s (childD p s.counter nm a rel) := rfl

theorem blockN_length (c : Nat) (nm : String) (as : List String) :
    (blockN c nm as).length = as.length := by
  induction as generalizing c with
  | nil => rfl
  | cons a as ih => simp [blockN, ih]

theorem foldl_addChild {α : Type} (p : Nat) (nm rel : String) (f : α → String) :
    ∀ (l : List α) (s : PState),
      l.foldl (fun s x => addChild s p nm (f x) rel) s
        = applyD s (blockD p s.counter nm rel (l.map f)) := by
  intro l
  induction l with
  | nil => intro s; simp [blockD, blockN, blockE, applyD]
  | cons x xs ih =>
    intro s
    rw [List.foldl_cons, ih, addChild_eq, applyD_applyD]
    congr 1

theorem parse_full_name_eq (root : XML) (p : Nat) (s : PState) :
    parse_full_name root p s
      = applyD s (optD p s.counter "FullName" "HAS_FULL_NAME" (fullNameAttr root)) := by
  unfold parse_full_name fullNameAttr
  cases find_full_name root with
  | none => simp [optD, applyD]
  | some fn => simp [optD, addChild_eq]

theorem parse_primary_name_eq (root : XML) (p : Nat) (s : PState) :
    parse_primary_name root p s
      = applyD s (optD p s.counter "Gene" ("FROM_GENE\nstatus: primary") (primaryAttr root)) := by
  unfold parse_primary_name primaryAttr
  cases find_primary_name root with
  | none => simp [optD, applyD]
  | some n => simp [optD, addChild_eq]

theorem parse_synonym_name_eq (root : XML) (p : Nat) (s : PState) :
    parse_synonym_name root p s
      = applyD s (blockD p s.counter "Gene" ("FROM_GENE\nstatus: synonym") (synonymAttrs root)) := by
  unfold parse_synonym_name synonymAttrs
  exact foldl_addChild p "Gene" ("FROM_GENE\nstatus: synonym")
    (fun n => "name: " ++ pyStrOpt n.text) (findall_gene_name root "synonym") s

theorem parse_scientific_name_eq (root : XML) (p : Nat) (s : PState) :
    parse_scientific_name root p s
      = applyD s (optD p s.counter "Organism" "IN_ORGANISM" (organismAttr root)) := by
  unfold parse_scientific_name organismAttr
  cases find_scientific_name root with
  | none => cases find_taxonomy root with
    | none => simp [optD, applyD]
    | some tax => simp [optD, applyD]
  | some sci =>
    cases find_taxonomy root with
    | none => simp [optD, applyD]
    | some tax => simp [optD, addChild_eq]

theorem parse_feature_eq (e : XML) (p : Nat) (s : PState) :
    parse_feature e p s
      = applyD s (blockD p s.counter "Feature" "HAS_REFERENCE" (featureAttrs e)) := by
  unfold parse_feature featureAttrs
  exact foldl_addChild p "Feature" "HAS_REFERENCE"
    (fun f => attribJoin f.attrib) (findall e "feature") s

theorem parse_authors_eq (rid : Nat) (authors : List XML) (s : PState) :
    parse_authors rid authors s
      = applyD s (blockD rid s.counter "Author" "HAS_AUTHOR"
          (authors.map (fun a => "name: " ++ pyStrOpt (a.get "name")))) := by
  unfold parse_authors
  exact foldl_addChild rid "Author" "HAS_AUTHOR"
    (fun a => "name: " ++ pyStrOpt (a.get "name")) authors s

theorem parse_one_reference_eq (p : Nat) (r : XML) (s : PState) :
    parse_one_reference p r s
      = match refErr r with
        | some e => .error e
        | none => .ok (applyD s (refD p s.counter (refDataT r))) := by
  unfold parse_one_reference refErr refDataT
  cases hc : find1 r "citation" with
  | none => rfl
  | some citation =>
    cases ha : find1 r "authorList" with
    | none => simp
    | some al =>
      simp only [Option.map_some, Option.getD_some]
      rw [addChild_eq, parse_authors_eq, applyD_applyD]
      congr 1

theorem refs_fold_eq (p : Nat) :
    ∀ (refs : List XML) (s : PState),
      refs.foldlM (fun s r => parse_one_reference p r s) s
        = match firstSome refErr refs with
          | some e => Except.error e
          | none => Except.ok (applyD s (refsD p s.counter (refs.map refDataT))) := by
  intro refs
  induction refs with
  | nil =>
    intro s
    show (pure s : Except ParseError PState) = _
    simp [firstSome, refsD, applyD, pure, Except.pure]
  | cons r rs ih =>
    intro s
    rw [List.foldlM_cons, parse_one_reference_eq]
    cases he : refErr r with
    | some e => simp only [firstSome, he]; rfl
    | none =>
      simp only [firstSome, he]
      show List.foldlM (fun s r => parse_one_reference p r s)
          (applyD s (refD p s.counter (refDataT r))) rs = _
      rw [ih, applyD_applyD]
      have hlen : (applyD s (refD p s.counter (refDataT r))).counter
          = s.counter + 1 + (refDataT r).2.length := by
        simp [applyD, refD, dapp, childD, blockD, blockN_length, Nat.add_assoc, Nat.add_comm]
      rw [hlen]
      cases hfs : firstSome refErr rs with
      | some e => rfl
      | none =>
        simp only [List.map_cons]
        rfl

theorem parse_references_eq (e : XML) (p : Nat) (s : PState) :
    parse_references e p s
      = match firstSome refErr (findall e "reference") with
        | some err => Except.error err
        | none => Except.ok (applyD s (refsD p s.counter ((findall e "reference").map refDataT))) := by
  unfold parse_references
  exact refs_fold_eq p (findall e "reference") s

theorem applyD_counter (s : PState) (d : Delta) :
    (applyD s d).counter = s.counter + d.1.length := rfl

theorem dapp_fst_length (d d' : Delta) :
    (dapp d d').1.length = d.1.length + d'.1.length := by
  simp [dapp]

theorem state_addNode_eq_applyD (s : PState) (nm a : String) :
    (⟨s.counter + 1, s.graph.addNode s.counter nm a⟩ : PState)
      = applyD s ([⟨s.counter, nm, a⟩], []) := by
  simp [applyD, Graph.addNode]

theorem parse_protein_eq (root e : XML) (s : PState) :
    parse_protein root e s
      = match entryErr e with
        | some err => Except.error err
        | none => Except.ok (applyD s (entryD root e s.counter)) := by
  unfold parse_protein parse_protein_id entryErr
  cases hacc : findall e "accession" with
  | nil => rfl
  | cons a as =>
    simp only [generate_node_id]
    rw [parse_full_name_eq, parse_primary_name_eq, parse_synonym_name_eq,
        parse_scientific_name_eq, parse_references_eq]
    cases hfs : firstSome refErr (findall e "reference") with
    | some err => rfl
    | none =>
      simp only [state_addNode_eq_applyD, parse_feature_eq, applyD_applyD, applyD_counter,
        dapp_assoc, dapp_fst_length, List.length_singleton, Nat.add_assoc, entryD,
        proteinAttr, hacc, List.head?_cons, Option.some_bind]

theorem entries_fold_eq (root : XML) :
    ∀ (es : List XML) (s : PState),
      es.foldlM (fun s e => parse_protein root e s) s
        = match firstSome entryErr es with
          | some err => Except.error err
          | none => Except.ok (applyD s (entriesD root s.counter es)) := by
  intro es
  induction es with
  | nil =>
    intro s
    show (pure s : Except ParseError PState) = _
    simp [firstSome, entriesD, applyD, pure, Except.pure]
  | cons e es ih =>
    intro s
    rw [List.foldlM_cons, parse_protein_eq]
    cases he : entryErr e with
    | some err => simp only [firstSome, he]; rfl
    | none =>
      simp only [firstSome, he]
      show List.foldlM (fun s e => parse_protein root e s)
          (applyD s (entryD root e s.counter)) es = _
      rw [ih, applyD_applyD]
      cases hfs : firstSome entryErr es with
      | some err => rfl
      | none => rfl

/-- The master characterisation: `parse` returns the first error in document
order, or the explicitly computed segment graph. -/
theorem parse_eq (root : XML) :
    parse root
      = match docErr root with
        | some err => Except.error err
        | none => Except.ok (specGraph root) := by
  unfold parse docErr specGraph
  rw [entries_fold_eq]
  cases hfs : firstSome entryErr (findall root "entry") with
  | some err => rfl
  | none => rfl

/-- A successful parse forces a clean document and yields the segment graph. -/
theorem parse_ok_iff (root : XML) (g : Graph) :
    parse root = .ok g ↔ docErr root = none ∧ g = specGraph root := by
  rw [parse_eq]
  cases hd : docErr root with
  | some err => simp
  | none =>
    simp only [true_and]
    constructor
    · intro h; cases h; rfl
    · intro h; rw [h]

/-! Structure of the deltas: ids form contiguous ranges, every node added by a
child block carries exactly one inbound edge, and node names are fixed per
block. -/

theorem seg1_nil (c : Nat) : seg1 ([], []) c := by
  constructor <;> rfl

theorem seg1_childD (p c : Nat) (nm a rel : String) : seg1 (childD p c nm a rel) c := by
  constructor <;> rfl

theorem seg1_blockD (p : Nat) (nm rel : String) (as : List String) :
    ∀ c, seg1 (blockD p c nm rel as) c := by
  induction as with
  | nil => intro c; exact seg1_nil c
  | cons a as ih =>
    intro c
    obtain ⟨h1, h2⟩ := ih (c + 1)
    constructor
    · show c :: (blockN (c+1) nm as).map Node.id = List.range' c (blockN (c+1) nm as).length.succ
      rw [List.range'_succ]
      simp only [blockD] at h1
      rw [h1, blockN_length]
    · show c :: (blockE p (c+1) rel as).map Edge.tgt = c :: (blockN (c+1) nm as).map Node.id
      simp only [blockD] at h2
      rw [h2]

theorem seg1_optD (p c : Nat) (nm rel : String) (o : Option String) :
    seg1 (optD p c nm rel o) c := by
  cases o with
  | none => exact seg1_nil c
  | some a => exact seg1_childD p c nm a rel

theorem seg1_dapp {d d' : Delta} {c : Nat} (h : seg1 d c) (h' : seg1 d' (c + d.1.length)) :
    seg1 (dapp d d') c := by
  obtain ⟨h1, h2⟩ := h
  obtain ⟨h1', h2'⟩ := h'
  constructor
  · show (d.1 ++ d'.1).map Node.id = List.range' c (d.1 ++ d'.1).length
    rw [List.map_append, h1, h1', List.length_append, List.range'_append_1, Nat.add_comm]
  · show (d.2 ++ d'.2).map Edge.tgt = (d.1 ++ d'.1).map Node.id
    rw [List.map_append, List.map_append, h2, h2']

theorem refD_fst_length (p c : Nat) (rd : String × List String) :
    (refD p c rd).1.length = 1 + rd.2.length := by
  simp [refD, dapp, childD, blockD, blockN_length, Nat.add_comm]

theorem seg1_refD (p c : Nat) (rd : String × List String) : seg1 (refD p c rd) c :=
  seg1_dapp (seg1_childD p c "Reference" rd.1 "HAS_REFERENCE")
    (seg1_blockD c "Author" "HAS_AUTHOR" rd.2 (c + 1))

theorem seg1_refsD (p : Nat) (rds : List (String × List String)) :
    ∀ c, seg1 (refsD p c rds) c := by
  induction rds with
  | nil => intro c; exact seg1_nil c
  | cons rd rds ih =>
    intro c
    have h := seg1_dapp (seg1_refD p c rd)
      (by rw [refD_fst_length, ← Nat.add_assoc]; exact ih (c + 1 + rd.2.length))
    exact h

theorem entryD_eq_rest (root e : XML) (c : Nat) :
    entryD root e c = dapp ([⟨c, "Protein", proteinAttr e⟩], []) (entryRest root e c) := rfl

theorem seg1_entryRest (root e : XML) (c : Nat) : seg1 (entryRest root e c) (c + 1) := by
  unfold entryRest
  refine seg1_dapp (seg1_optD _ _ _ _ _) ?_
  refine seg1_dapp (seg1_optD _ _ _ _ _) ?_
  refine seg1_dapp (seg1_blockD _ _ _ _ _) ?_
  refine seg1_dapp (seg1_optD _ _ _ _ _) ?_
  refine seg1_dapp (seg1_refsD _ _ _) ?_
  have := seg1_blockD c "Feature" "HAS_REFERENCE" (featureAttrs e)
  simp only [dapp_fst_length, blockD, blockN_length, ← Nat.add_assoc] at *
  exact this _

theorem entryD_ids (root e : XML) (c : Nat) :
    (entryD root e c).1.map Node.id = List.range' c (entryD root e c).1.length := by
  rw [entryD_eq_rest]
  obtain ⟨h1, _⟩ := seg1_entryRest root e c
  show c :: (entryRest root e c).1.map Node.id
      = List.range' c ((entryRest root e c).1.length + 1)
  rw [List.range'_succ, h1]

theorem entryD_tgts (root e : XML) (c : Nat) :
    (entryD root e c).2.map Edge.tgt = (entryRest root e c).1.map Node.id := by
  rw [entryD_eq_rest]
  obtain ⟨_, h2⟩ := seg1_entryRest root e c
  show (entryRest root e c).2.map Edge.tgt = _
  exact h2

theorem entriesD_ids (root : XML) (es : List XML) :
    ∀ c, (entriesD root c es).1.map Node.id = List.range' c (entriesD root c es).1.length := by
  induction es with
  | nil => intro c; rfl
  | cons e es ih =>
    intro c
    show ((entryD root e c).1 ++ (entriesD root (c + (entryD root e c).1.length) es).1).map Node.id
        = List.range' c ((entryD root e c).1 ++ (entriesD root (c + (entryD root e c).1.length) es).1).length
    rw [List.map_append, entryD_ids, ih, List.length_append, List.range'_append_1, Nat.add_comm]

theorem specGraph_nodes (root : XML) :
    (specGraph root).nodes = (entriesD root 0 (findall root "entry")).1 := rfl

theorem specGraph_edges (root : XML) :
    (specGraph root).edges = (entriesD root 0 (findall root "entry")).2 := rfl

theorem specGraph_ids_nodup (root : XML) :
    ((specGraph root).nodes.map Node.id).Nodup := by
  rw [specGraph_nodes, entriesD_ids]
  exact List.nodup_range' 0 _

/-! Node names per block. -/

theorem blockN_names (nm : String) (as : List String) :
    ∀ c, ∀ n ∈ blockN c nm as, n.name = nm := by
  induction as with
  | nil => intro c n h; cases h
  | cons a as ih =>
    intro c n h
    cases h with
    | head => rfl
    | tail _ h => exact ih (c + 1) n h

theorem optD_names (p c : Nat) (nm rel : String) (o : Option String) :
    ∀ n ∈ (optD p c nm rel o).1, n.name = nm := by
  cases o with
  | none => intro n h; cases h
  | some a => exact blockN_names nm [a] c

theorem refsD_names (p : Nat) (rds : List (String × List String)) :
    ∀ c, ∀ n ∈ (refsD p c rds).1, n.name = "Reference" ∨ n.name = "Author" := by
  induction rds with
  | nil => intro c n h; cases h
  | cons rd rds ih =>
    intro c n h
    rcases List.mem_append.mp h with h | h
    · rcases List.mem_append.mp h with h | h
      · cases h with
        | head => exact .inl rfl
        | tail _ h => cases h
      · exact .inr (blockN_names "Author" rd.2 (c + 1) n h)
    · exact ih (c + 1 + rd.2.length) n h

theorem entryRest_not_protein (root e : XML) (c : Nat) :
    ∀ n ∈ (entryRest root e c).1, (n.name == "Protein") = false := by
  intro n h
  unfold entryRest at h
  simp only [dapp] at h
  rcases List.mem_append.mp h with h | h
  · rw [optD_names _ _ _ _ _ n h]; rfl
  rcases List.mem_append.mp h with h | h
  · rw [optD_names _ _ _ _ _ n h]; rfl
  rcases List.mem_append.mp h with h | h
  · rw [blockN_names _ _ _ n h]; rfl
  rcases List.mem_append.mp h with h | h
  · rw [optD_names _ _ _ _ _ n h]; rfl
  rcases List.mem_append.mp h with h | h
  · rcases refsD_names _ _ _ n h with hn | hn <;> rw [hn] <;> rfl
  · rw [blockN_names _ _ _ n h]; rfl

theorem entryD_tgts_filter (root e : XML) (c : Nat) :
    (entryD root e c).2.map Edge.tgt
      = ((entryD root e c).1.filter (fun n => !(n.name == "Protein"))).map Node.id := by
  rw [entryD_tgts, entryD_eq_rest]
  show _ = ((⟨c, "Protein", proteinAttr e⟩ :: (entryRest root e c).1).filter
      (fun n => !(n.name == "Protein"))).map Node.id
  rw [List.filter_cons_of_neg (by simp)]
  rw [List.filter_eq_self.mpr]
  intro n h
  simp [entryRest_not_protein root e c n h]

theorem entriesD_tgts_filter (root : XML) (es : List XML) :
    ∀ c, (entriesD root c es).2.map Edge.tgt
      = ((entriesD root c es).1.filter (fun n => !(n.name == "Protein"))).map Node.id := by
  induction es with
  | nil => intro c; rfl
  | cons e es ih =>
    intro c
    show ((entryD root e c).2 ++ _).map Edge.tgt
        = (((entryD root e c).1 ++ _).filter (fun n => !(n.name == "Protein"))).map Node.id
    rw [List.map_append, List.filter_append, List.map_append, entryD_tgts_filter, ih]

/-! Name-filtered attribute lists. -/

theorem namedAttrs_append (nm : String) (l1 l2 : List Node) :
    namedAttrs nm (l1 ++ l2) = namedAttrs nm l1 ++ namedAttrs nm l2 := by
  simp [namedAttrs, List.filter_append]

theorem namedAttrs_blockN_same (nm : String) (as : List String) :
    ∀ c, namedAttrs nm (blockN c nm as) = as := by
  induction as with
  | nil => intro c; rfl
  | cons a as ih =>
    intro c
    show namedAttrs nm (⟨c, nm, a⟩ :: blockN (c + 1) nm as) = a :: as
    simp only [namedAttrs, List.filter_cons] at *
    simp [ih (c + 1)]

theorem namedAttrs_blockN_other {nm nm' : String} (h : (nm' == nm) = false) (as : List String) :
    ∀ c, namedAttrs nm (blockN c nm' as) = [] := by
  induction as with
  | nil => intro c; rfl
  | cons a as ih =>
    intro c
    show namedAttrs nm (⟨c, nm', a⟩ :: blockN (c + 1) nm' as) = []
    simp only [namedAttrs, List.filter_cons] at *
    simp [h, ih (c + 1)]

theorem namedAttrs_optD_same (nm rel : String) (p c : Nat) (o : Option String) :
    namedAttrs nm (optD p c nm rel o).1 = o.toList := by
  cases o with
  | none => rfl
  | some a => exact namedAttrs_blockN_same nm [a] c

theorem namedAttrs_optD_other {nm nm' : String} (h : (nm' == nm) = false) (rel : String)
    (p c : Nat) (o : Option String) :
    namedAttrs nm (optD p c nm' rel o).1 = [] := by
  cases o with
  | none => rfl
  | some a => exact namedAttrs_blockN_other h [a] c

theorem namedAttrs_refsD_reference (p : Nat) (rds : List (String × List String)) :
    ∀ c, namedAttrs "Reference" (refsD p c rds).1 = rds.map Prod.fst := by
  induction rds with
  | nil => intro c; rfl
  | cons rd rds ih =>
    intro c
    show namedAttrs "Reference"
        ((⟨c, "Reference", rd.1⟩ :: blockN (c + 1) "Author" rd.2)
          ++ (refsD p (c + 1 + rd.2.length) rds).1) = rd.1 :: rds.map Prod.fst
    rw [namedAttrs_append, ih (c + 1 + rd.2.length)]
    show (namedAttrs "Reference" (⟨c, "Reference", rd.1⟩ :: blockN (c + 1) "Author" rd.2)) ++ _ = _
    simp only [namedAttrs, List.filter_cons]
    rw [List.filter_eq_nil_iff.mpr]
    · simp
    · intro n h
      rw [blockN_names "Author" rd.2 (c + 1) n h]
      simp

theorem namedAttrs_refsD_author (p : Nat) (rds : List (String × List String)) :
    ∀ c, namedAttrs "Author" (refsD p c rds).1 = rds.flatMap Prod.snd := by
  induction rds with
  | nil => intro c; rfl
  | cons rd rds ih =>
    intro c
    show namedAttrs "Author"
        ((⟨c, "Reference", rd.1⟩ :: blockN (c + 1) "Author" rd.2)
          ++ (refsD p (c + 1 + rd.2.length) rds).1) = rd.2 ++ rds.flatMap Prod.snd
    rw [namedAttrs_append, ih (c + 1 + rd.2.length)]
    show (namedAttrs "Author" (⟨c, "Reference", rd.1⟩ :: blockN (c + 1) "Author" rd.2)) ++ _ = _
    simp only [namedAttrs, List.filter_cons]
    simp only [show (("Reference" : String) == "Author") = false from rfl]
    have := namedAttrs_blockN_same "Author" rd.2 (c + 1)
    simp only [namedAttrs] at this
    simp [this]

theorem namedAttrs_refsD_other {nm : String} (h1 : (("Reference" : String) == nm) = false)
    (h2 : (("Author" : String) == nm) = false) (p : Nat) (rds : List (String × List String)) :
    ∀ c, namedAttrs nm (refsD p c rds).1 = [] := by
  induction rds with
  | nil => intro c; rfl
  | cons rd rds ih =>
    intro c
    show namedAttrs nm
        ((⟨c, "Reference", rd.1⟩ :: blockN (c + 1) "Author" rd.2)
          ++ (refsD p (c + 1 + rd.2.length) rds).1) = []
    rw [namedAttrs_append, ih (c + 1 + rd.2.length)]
    have hb := namedAttrs_blockN_other h2 rd.2 (c + 1)
    simp only [namedAttrs, List.filter_cons] at *
    simp [h1, hb]

theorem namedAttrs_cons_other {nm : String} {x : Node} (h : (x.name == nm) = false)
    (l : List Node) : namedAttrs nm (x :: l) = namedAttrs nm l := by
  simp [namedAttrs, List.filter_cons, h]

theorem namedAttrs_cons_same {nm : String} {x : Node} (h : (x.name == nm) = true)
    (l : List Node) : namedAttrs nm (x :: l) = x.attr :: namedAttrs nm l := by
  simp [namedAttrs, List.filter_cons, h]

theorem entry_attrs_protein (root e : XML) (c : Nat) :
    namedAttrs "Protein" (entryD root e c).1 = [proteinAttr e] := by
  rw [entryD_eq_rest]
  show namedAttrs "Protein" (⟨c, "Protein", proteinAttr e⟩ :: (entryRest root e c).1) = _
  rw [namedAttrs_cons_same (by rfl)]
  unfold entryRest
  simp only [dapp, blockD]
  rw [namedAttrs_append, namedAttrs_append, namedAttrs_append, namedAttrs_append,
      namedAttrs_append]
  rw [namedAttrs_optD_other (by rfl), namedAttrs_optD_other (by rfl),
      namedAttrs_blockN_other (by rfl), namedAttrs_optD_other (by rfl),
      namedAttrs_refsD_other (by rfl) (by rfl), namedAttrs_blockN_other (by rfl)]
  rfl

theorem entry_attrs_fullName (root e : XML) (c : Nat) :
    namedAttrs "FullName" (entryD root e c).1 = (fullNameAttr root).toList := by
  rw [entryD_eq_rest]
  show namedAttrs "FullName" (⟨c, "Protein", proteinAttr e⟩ :: (entryRest root e c).1) = _
  rw [namedAttrs_cons_other (by rfl)]
  unfold entryRest
  simp only [dapp, blockD]
  rw [namedAttrs_append, namedAttrs_append, namedAttrs_append, namedAttrs_append,
      namedAttrs_append]
  rw [namedAttrs_optD_same, namedAttrs_optD_other (by rfl),
      namedAttrs_blockN_other (by rfl), namedAttrs_optD_other (by rfl),
      namedAttrs_refsD_other (by rfl) (by rfl), namedAttrs_blockN_other (by rfl)]
  simp

theorem entry_attrs_gene (root e : XML) (c : Nat) :
    namedAttrs "Gene" (entryD root e c).1
      = (primaryAttr root).toList ++ synonymAttrs root := by
  rw [entryD_eq_rest]
  show namedAttrs "Gene" (⟨c, "Protein", proteinAttr e⟩ :: (entryRest root e c).1) = _
  rw [namedAttrs_cons_other (by rfl)]
  unfold entryRest
  simp only [dapp, blockD]
  rw [namedAttrs_append, namedAttrs_append, namedAttrs_append, namedAttrs_append,
      namedAttrs_append]
  rw [namedAttrs_optD_other (by rfl), namedAttrs_optD_same,
      namedAttrs_blockN_same, namedAttrs_optD_other (by rfl),
      namedAttrs_refsD_other (by rfl) (by rfl), namedAttrs_blockN_other (by rfl)]
  simp

theorem entry_attrs_organism (root e : XML) (c : Nat) :
    namedAttrs "Organism" (entryD root e c).1 = (organismAttr root).toList := by
  rw [entryD_eq_rest]
  show namedAttrs "Organism" (⟨c, "Protein", proteinAttr e⟩ :: (entryRest root e c).1) = _
  rw [namedAttrs_cons_other (by rfl)]
  unfold entryRest
  simp only [dapp, blockD]
  rw [namedAttrs_append, namedAttrs_append, namedAttrs_append, namedAttrs_append,
      namedAttrs_append]
  rw [namedAttrs_optD_other (by rfl), namedAttrs_optD_other (by rfl),
      namedAttrs_blockN_other (by rfl), namedAttrs_optD_same,
      namedAttrs_refsD_other (by rfl) (by rfl), namedAttrs_blockN_other (by rfl)]
  simp

theorem entry_attrs_reference (root e : XML) (c : Nat) :
    namedAttrs "Reference" (entryD root e c).1
      = ((findall e "reference").map refDataT).map Prod.fst := by
  rw [entryD_eq_rest]
  show namedAttrs "Reference" (⟨c, "Protein", proteinAttr e⟩ :: (entryRest root e c).1) = _
  rw [namedAttrs_cons_other (by rfl)]
  unfold entryRest
  simp only [dapp, blockD]
  rw [namedAttrs_append, namedAttrs_append, namedAttrs_append, namedAttrs_append,
      namedAttrs_append]
  rw [namedAttrs_optD_other (by rfl), namedAttrs_optD_other (by rfl),
      namedAttrs_blockN_other (by rfl), namedAttrs_optD_other (by rfl),
      namedAttrs_refsD_reference, namedAttrs_blockN_other (by rfl)]
  simp

theorem entry_attrs_author (root e : XML) (c : Nat) :
    namedAttrs "Author" (entryD root e c).1
      = ((findall e "reference").map refDataT).flatMap Prod.snd := by
  rw [entryD_eq_rest]
  show namedAttrs "Author" (⟨c, "Protein", proteinAttr e⟩ :: (entryRest root e c).1) = _
  rw [namedAttrs_cons_other (by rfl)]
  unfold entryRest
  simp only [dapp, blockD]
  rw [namedAttrs_append, namedAttrs_append, namedAttrs_append, namedAttrs_append,
      namedAttrs_append]
  rw [namedAttrs_optD_other (by rfl), namedAttrs_optD_other (by rfl),
      namedAttrs_blockN_other (by rfl), namedAttrs_optD_other (by rfl),
      namedAttrs_refsD_author, namedAttrs_blockN_other (by rfl)]
  simp

theorem entry_attrs_feature (root e : XML) (c : Nat) :
    namedAttrs "Feature" (entryD root e c).1 = featureAttrs e := by
  rw [entryD_eq_rest]
  show namedAttrs "Feature" (⟨c, "Protein", proteinAttr e⟩ :: (entryRest root e c).1) = _
  rw [namedAttrs_cons_other (by rfl)]
  unfold entryRest
  simp only [dapp, blockD]
  rw [namedAttrs_append, namedAttrs_append, namedAttrs_append, namedAttrs_append,
      namedAttrs_append]
  rw [namedAttrs_optD_other (by rfl), namedAttrs_optD_other (by rfl),
      namedAttrs_blockN_other (by rfl), namedAttrs_optD_other (by rfl),
      namedAttrs_refsD_other (by rfl) (by rfl), namedAttrs_blockN_same]
  simp

theorem namedAttrs_entriesD (nm : String) (root : XML) (F : XML → List String)
    (hF : ∀ e c, namedAttrs nm (entryD root e c).1 = F e) (es : List XML) :
    ∀ c, namedAttrs nm (entriesD root c es).1 = es.flatMap F := by
  induction es with
  | nil => intro c; rfl
  | cons e es ih =>
    intro c
    show namedAttrs nm ((entryD root e c).1 ++ _) = F e ++ es.flatMap F
    rw [namedAttrs_append, hF, ih]

theorem flatMap_pure_eq_map {α β : Type} (f : α → β) (l : List α) :
    l.flatMap (fun a => [f a]) = l.map f := by
  induction l with
  | nil => rfl
  | cons a l ih => simp only [List.flatMap_cons, List.map_cons, ih]; rfl

theorem specGraph_attrs_protein (root : XML) :
    namedAttrs "Protein" (specGraph root).nodes = (findall root "entry").map proteinAttr := by
  rw [specGraph_nodes,
    namedAttrs_entriesD "Protein" root (fun e => [proteinAttr e])
      (fun e c => entry_attrs_protein root e c)]
  exact flatMap_pure_eq_map proteinAttr _

theorem specGraph_attrs_fullName (root : XML) :
    namedAttrs "FullName" (specGraph root).nodes
      = (findall root "entry").flatMap (fun _ => (fullNameAttr root).toList) := by
  rw [specGraph_nodes]
  exact namedAttrs_entriesD "FullName" root _ (fun e c => entry_attrs_fullName root e c) _ 0

theorem specGraph_attrs_gene (root : XML) :
    namedAttrs "Gene" (specGraph root).nodes
      = (findall root "entry").flatMap
          (fun _ => (primaryAttr root).toList ++ synonymAttrs root) := by
  rw [specGraph_nodes]
  exact namedAttrs_entriesD "Gene" root _ (fun e c => entry_attrs_gene root e c) _ 0

theorem specGraph_attrs_organism (root : XML) :
    namedAttrs "Organism" (specGraph root).nodes
      = (findall root "entry").flatMap (fun _ => (organismAttr root).toList) := by
  rw [specGraph_nodes]
  exact namedAttrs_entriesD "Organism" root _ (fun e c => entry_attrs_organism root e c) _ 0

theorem specGraph_attrs_reference (root : XML) :
    namedAttrs "Reference" (specGraph root).nodes
      = (findall root "entry").flatMap
          (fun e => ((findall e "reference").map refDataT).map Prod.fst) := by
  rw [specGraph_nodes]
  exact namedAttrs_entriesD "Reference" root _ (fun e c => entry_attrs_reference root e c) _ 0

theorem specGraph_attrs_author (root : XML) :
    namedAttrs "Author" (specGraph root).nodes
      = (findall root "entry").flatMap
          (fun e => ((findall e "reference").map refDataT).flatMap Prod.snd) := by
  rw [specGraph_nodes]
  exact namedAttrs_entriesD "Author" root _ (fun e c => entry_attrs_author root e c) _ 0

theorem specGraph_attrs_feature (root : XML) :
    namedAttrs "Feature" (specGraph root).nodes
      = (findall root "entry").flatMap featureAttrs := by
  rw [specGraph_nodes]
  exact namedAttrs_entriesD "Feature" root _ (fun e c => entry_attrs_feature root e c) _ 0

theorem attr_mem_namedAttrs {nm : String} {n : Node} {ns : List Node}
    (h : n ∈ ns) (hn : (n.name == nm) = true) : n.attr ∈ namedAttrs nm ns :=
  List.mem_map_of_mem _ (List.mem_filter.mpr ⟨h, hn⟩)

/-! In-degree bookkeeping. -/

theorem inDeg_eq_count (g : Graph) (i : Nat) :
    g.inDeg i = (g.edges.map Edge.tgt).count i := by
  unfold Graph.inDeg
  rw [List.count_eq_countP, List.countP_map, ← List.countP_eq_length_filter]
  rfl

theorem outDeg_eq_count (g : Graph) (i : Nat) :
    g.outDeg i = (g.edges.map Edge.src).count i := by
  unfold Graph.outDeg
  rw [List.count_eq_countP, List.countP_map, ← List.countP_eq_length_filter]
  rfl

theorem count_filter_map_id {ns : List Node} (p : Node → Bool) :
    ∀ {n : Node}, (ns.map Node.id).Nodup → n ∈ ns →
      ((ns.filter p).map Node.id).count n.id = if p n then 1 else 0 := by
  induction ns with
  | nil => intro n _ h; cases h
  | cons x xs ih =>
    intro n hnd hmem
    have hnd' : (xs.map Node.id).Nodup := (List.nodup_cons.mp hnd).2
    have hxid : x.id ∉ xs.map Node.id := (List.nodup_cons.mp hnd).1
    cases hmem with
    | head =>
      have hzero : ((xs.filter p).map Node.id).count x.id = 0 := by
        rw [List.count_eq_zero]
        intro hc
        exact hxid (List.map_subset Node.id (fun a ha => List.mem_of_mem_filter ha) hc)
      cases hp : p x with
      | true => rw [List.filter_cons_of_pos hp]; simp [hzero, hp]
      | false => rw [List.filter_cons_of_neg (by simp [hp])]; simp [hzero, hp]
    | tail _ hmem =>
      have hne : x.id ≠ n.id := by
        intro hEq
        exact hxid (hEq ▸ List.mem_map_of_mem Node.id hmem)
      cases hp : p x with
      | true =>
        rw [List.filter_cons_of_pos hp]
        rw [List.map_cons, List.count_cons_of_ne (Ne.symm hne)]
        exact ih hnd' hmem
      | false =>
        rw [List.filter_cons_of_neg (by simp [hp])]
        exact ih hnd' hmem

/-! Edge typing: every edge goes from the structural parent to the node that
was created together with it, with the label fixed by the child kind. -/

theorem edgeTyped_mono {ns ns' : List Node} (hsub : ∀ n ∈ ns, n ∈ ns') {ed : Edge}
    (h : edgeTyped ns ed) : edgeTyped ns' ed := by
  obtain ⟨sn, hsn, hs, tn, htn, ht, hk⟩ := h
  exact ⟨sn, hsub sn hsn, hs, tn, hsub tn htn, ht, hk⟩

theorem blockE_typed (p : Nat) (rel nm : String) (as : List String) :
    ∀ c, ∀ ed ∈ blockE p c rel as,
      ed.src = p ∧ ed.attr = rel ∧ ∃ tn ∈ blockN c nm as, tn.id = ed.tgt ∧ tn.name = nm := by
  induction as with
  | nil => intro c ed h; cases h
  | cons a as ih =>
    intro c ed h
    cases h with
    | head => exact ⟨rfl, rfl, ⟨c, nm, a⟩, List.mem_cons_self _ _, rfl, rfl⟩
    | tail _ h =>
      obtain ⟨h1, h2, tn, htn, h3, h4⟩ := ih (c + 1) ed h
      exact ⟨h1, h2, tn, List.mem_cons_of_mem _ htn, h3, h4⟩

theorem optD_typed (p c : Nat) (nm rel : String) (o : Option String) :
    ∀ ed ∈ (optD p c nm rel o).2,
      ed.src = p ∧ ed.attr = rel
        ∧ ∃ tn ∈ (optD p c nm rel o).1, tn.id = ed.tgt ∧ tn.name = nm := by
  cases o with
  | none => intro ed h; cases h
  | some a =>
    intro ed h
    cases h with
    | head => exact ⟨rfl, rfl, ⟨c, nm, a⟩, List.mem_cons_self _ _, rfl, rfl⟩
    | tail _ h => cases h

theorem refsD_typed (p : Nat) (rds : List (String × List String)) :
    ∀ c, ∀ ed ∈ (refsD p c rds).2,
      (ed.src = p ∧ ed.attr = "HAS_REFERENCE"
        ∧ ∃ tn ∈ (refsD p c rds).1, tn.id = ed.tgt ∧ tn.name = "Reference")
      ∨ (ed.attr = "HAS_AUTHOR"
        ∧ (∃ sn ∈ (refsD p c rds).1, sn.id = ed.src ∧ sn.name = "Reference")
        ∧ ∃ tn ∈ (refsD p c rds).1, tn.id = ed.tgt ∧ tn.name = "Author") := by
  induction rds with
  | nil => intro c ed h; cases h
  | cons rd rds ih =>
    intro c ed h
    rcases List.mem_append.mp h with h | h
    · cases h with
      | head =>
        exact .inl ⟨rfl, rfl, ⟨c, "Reference", rd.1⟩,
          List.mem_append_left _ (List.mem_cons_self _ _), rfl, rfl⟩
      | tail _ h =>
        obtain ⟨h1, h2, tn, htn, h3, h4⟩ := blockE_typed c "HAS_AUTHOR" "Author" rd.2 (c + 1) ed h
        exact .inr ⟨h2,
          ⟨⟨c, "Reference", rd.1⟩, List.mem_append_left _ (List.mem_cons_self _ _), h1.symm, rfl⟩,
          tn, List.mem_append_left _ (List.mem_cons_of_mem _ htn), h3, h4⟩
    · rcases ih (c + 1 + rd.2.length) ed h with
        ⟨h1, h2, tn, htn, h3⟩ | ⟨h1, ⟨sn, hsn, h2⟩, tn, htn, h3⟩
      · exact .inl ⟨h1, h2, tn, List.mem_append_right _ htn, h3⟩
      · exact .inr ⟨h1, ⟨sn, List.mem_append_right _ hsn, h2⟩, tn,
          List.mem_append_right _ htn, h3⟩

theorem entryD_typed (root e : XML) (c : Nat) :
    ∀ ed ∈ (entryD root e c).2, edgeTyped (entryD root e c).1 ed := by
  intro ed hed
  have hpn : (⟨c, "Protein", proteinAttr e⟩ : Node) ∈ (entryD root e c).1 := by
    simp only [entryD, dapp]
    exact List.mem_cons_self _ _
  simp only [entryD, dapp, List.mem_append] at hed
  rcases hed with h0 | h | h | h | h | h | h
  · cases h0
  · obtain ⟨h1, h2, tn, htn, h3, h4⟩ := optD_typed _ _ _ _ _ ed h
    refine ⟨_, hpn, h1.symm, tn, ?_, h3, .inl ⟨h4, h2, rfl⟩⟩
    simp only [entryD, dapp, List.mem_cons, List.mem_append]
    tauto
  · obtain ⟨h1, h2, tn, htn, h3, h4⟩ := optD_typed _ _ _ _ _ ed h
    refine ⟨_, hpn, h1.symm, tn, ?_, h3, .inr (.inl ⟨h4, .inl h2, rfl⟩)⟩
    simp only [entryD, dapp, List.mem_cons, List.mem_append]
    tauto
  · obtain ⟨h1, h2, tn, htn, h3, h4⟩ := blockE_typed _ _ "Gene" _ _ ed h
    refine ⟨_, hpn, h1.symm, tn, ?_, h3, .inr (.inl ⟨h4, .inr h2, rfl⟩)⟩
    simp only [entryD, dapp, List.mem_cons, List.mem_append]
    tauto
  · obtain ⟨h1, h2, tn, htn, h3, h4⟩ := optD_typed _ _ _ _ _ ed h
    refine ⟨_, hpn, h1.symm, tn, ?_, h3, .inr (.inr (.inl ⟨h4, h2, rfl⟩))⟩
    simp only [entryD, dapp, List.mem_cons, List.mem_append]
    tauto
  · rcases refsD_typed _ _ _ ed h with
      ⟨h1, h2, tn, htn, h3, h4⟩ | ⟨h1, ⟨sn, hsn, h2, h5⟩, tn, htn, h3, h4⟩
    · refine ⟨_, hpn, h1.symm, tn, ?_, h3, .inr (.inr (.inr (.inl ⟨h4, h2, rfl⟩)))⟩
      simp only [entryD, dapp, List.mem_cons, List.mem_append]
      tauto
    · refine ⟨sn, ?_, h2, tn, ?_, h3, .inr (.inr (.inr (.inr (.inl ⟨h4, h1, h5⟩))))⟩
      · simp only [entryD, dapp, List.mem_cons, List.mem_append]
        tauto
      · simp only [entryD, dapp, List.mem_cons, List.mem_append]
        tauto
  · obtain ⟨h1, h2, tn, htn, h3, h4⟩ := blockE_typed _ _ "Feature" _ _ ed h
    refine ⟨_, hpn, h1.symm, tn, ?_, h3, .inr (.inr (.inr (.inr (.inr ⟨h4, h2, rfl⟩))))⟩
    simp only [entryD, dapp, List.mem_cons, List.mem_append]
    tauto

theorem entriesD_typed (root : XML) (es : List XML) :
    ∀ c, ∀ ed ∈ (entriesD root c es).2, edgeTyped (entriesD root c es).1 ed := by
  induction es with
  | nil => intro c ed h; cases h
  | cons e es ih =>
    intro c ed h
    rcases List.mem_append.mp h with h | h
    · exact edgeTyped_mono (fun n hn => List.mem_append_left _ hn) (entryD_typed root e c ed h)
    · exact edgeTyped_mono (fun n hn => List.mem_append_right _ hn) (ih _ ed h)

theorem specGraph_typed (root : XML) :
    ∀ ed ∈ (specGraph root).edges, edgeTyped (specGraph root).nodes ed := by
  intro ed h
  exact entriesD_typed root _ 0 ed h

/-! Claim theorems. -/

/-- Claim C1: for every valid input document (one on which `parse` succeeds)
containing N `entry` elements, the output graph contains exactly N nodes named
`Protein`, and all node ids in the graph are pairwise distinct. -/
theorem claim_C1 (root : XML) (g : Graph) (h : parse root = .ok g) :
    (g.nodes.filter (fun n => n.name == "Protein")).length = (findall root "entry").length
    ∧ (g.nodes.map Node.id).Nodup := by
  obtain ⟨hd, rfl⟩ := (parse_ok_iff root g).mp h
  constructor
  · have hlen := congrArg List.length (specGraph_attrs_protein root)
    simpa [namedAttrs] using hlen
  · exact specGraph_ids_nodup root

/-- Claim C2: in every graph produced by a completed parse, a node named
`Protein` has zero inbound edges and every other node has exactly one inbound
edge; moreover every edge targets a node of the graph. -/
theorem claim_C2 (root : XML) (g : Graph) (h : parse root = .ok g) :
    (∀ n ∈ g.nodes, g.inDeg n.id = if n.name == "Protein" then 0 else 1)
    ∧ (∀ ed ∈ g.edges, ∃ n ∈ g.nodes, n.id = ed.tgt) := by
  obtain ⟨hd, rfl⟩ := (parse_ok_iff root g).mp h
  have hnd := specGraph_ids_nodup root
  have htgt : (specGraph root).edges.map Edge.tgt
      = ((specGraph root).nodes.filter (fun n => !(n.name == "Protein"))).map Node.id := by
    rw [specGraph_edges, specGraph_nodes]
    exact entriesD_tgts_filter root _ 0
  constructor
  · intro n hn
    rw [inDeg_eq_count, htgt, count_filter_map_id _ hnd hn]
    cases hx : n.name == "Protein" <;> simp [hx]
  · intro ed hed
    have hm : ed.tgt ∈ (specGraph root).edges.map Edge.tgt := List.mem_map_of_mem _ hed
    rw [htgt] at hm
    obtain ⟨n, hn, hid⟩ := List.mem_map.mp hm
    exact ⟨n, List.mem_of_mem_filter hn, hid⟩

/-- Claim C4: the full-name, gene-name and organism lookups are evaluated
against the document root, so in every successfully parsed graph each
`FullName` and `Organism` node carries the attribute derived from the first
matching element of the whole document, and each `Gene` node carries one of
the attributes of the document-global gene-name matches — independently of
which protein the node hangs under. -/
theorem claim_C4 (root : XML) (g : Graph) (h : parse root = .ok g) :
    ∀ n ∈ g.nodes,
      (n.name = "FullName" → fullNameAttr root = some n.attr)
      ∧ (n.name = "Organism" → organismAttr root = some n.attr)
      ∧ (n.name = "Gene" →
          primaryAttr root = some n.attr ∨ n.attr ∈ synonymAttrs root) := by
  obtain ⟨hd, rfl⟩ := (parse_ok_iff root g).mp h
  intro n hn
  refine ⟨fun hfn => ?_, fun horg => ?_, fun hg => ?_⟩
  · have hm := @attr_mem_namedAttrs "FullName" n ((specGraph root).nodes) hn (by simp [hfn])
    rw [specGraph_attrs_fullName] at hm
    obtain ⟨e, _, hmem⟩ := List.mem_flatMap.mp hm
    cases hfull : fullNameAttr root with
    | none => rw [hfull] at hmem; cases hmem
    | some a =>
      rw [hfull] at hmem
      cases hmem with
      | head => rfl
      | tail _ hx => cases hx
  · have hm := @attr_mem_namedAttrs "Organism" n ((specGraph root).nodes) hn (by simp [horg])
    rw [specGraph_attrs_organism] at hm
    obtain ⟨e, _, hmem⟩ := List.mem_flatMap.mp hm
    cases horg2 : organismAttr root with
    | none => rw [horg2] at hmem; cases hmem
    | some a =>
      rw [horg2] at hmem
      cases hmem with
      | head => rfl
      | tail _ hx => cases hx
  · have hm := @attr_mem_namedAttrs "Gene" n ((specGraph root).nodes) hn (by simp [hg])
    rw [specGraph_attrs_gene] at hm
    obtain ⟨e, _, hmem⟩ := List.mem_flatMap.mp hm
    rcases List.mem_append.mp hmem with hx | hx
    · left
      cases hp : primaryAttr root with
      | none => rw [hp] at hx; cases hx
      | some a =>
        rw [hp] at hx
        cases hx with
        | head => rfl
        | tail _ hy => cases hy
    · exact .inr hx

/-! Error analysis. -/

theorem firstSome_eq_none {α β : Type} (f : α → Option β) :
    ∀ {l : List α}, firstSome f l = none ↔ ∀ a ∈ l, f a = none := by
  intro l
  induction l with
  | nil => simp [firstSome]
  | cons a as ih =>
    cases hf : f a with
    | some b => simp [firstSome, hf]
    | none => simp [firstSome, hf, ih]

theorem firstSome_mem {α β : Type} (f : α → Option β) :
    ∀ {l : List α} {b}, firstSome f l = some b → ∃ a ∈ l, f a = some b := by
  intro l
  induction l with
  | nil => intro b h; cases h
  | cons a as ih =>
    intro b h
    simp only [firstSome] at h
    cases hf : f a with
    | some b2 =>
      rw [hf] at h
      exact ⟨a, List.mem_cons_self _ _, by rw [hf]; exact h⟩
    | none =>
      rw [hf] at h
      obtain ⟨a2, ha2, hv⟩ := ih h
      exact ⟨a2, List.mem_cons_of_mem _ ha2, hv⟩

theorem firstSome_isSome {α β : Type} (f : α → Option β) :
    ∀ {l : List α} {a}, a ∈ l → f a ≠ none → ∃ b, firstSome f l = some b := by
  intro l
  induction l with
  | nil => intro a h; cases h
  | cons x xs ih =>
    intro a ha hne
    cases hf : f x with
    | some b => exact ⟨b, by simp [firstSome, hf]⟩
    | none =>
      cases ha with
      | head => exact absurd hf hne
      | tail _ ha =>
        obtain ⟨b, hb⟩ := ih ha hne
        exact ⟨b, by simp [firstSome, hf, hb]⟩

theorem firstSome_const {α β : Type} (f : α → Option β) (v : β) :
    ∀ {l : List α}, (∀ a ∈ l, f a = none ∨ f a = some v) → (∃ a ∈ l, f a = some v) →
      firstSome f l = some v := by
  intro l
  induction l with
  | nil => intro _ h; obtain ⟨a, ha, _⟩ := h; cases ha
  | cons x xs ih =>
    intro hall hex
    cases hf : f x with
    | some b =>
      rcases hall x (List.mem_cons_self _ _) with h | h
      · rw [hf] at h; cases h
      · rw [hf] at h
        injection h with h
        simp [firstSome, hf, h]
    | none =>
      have hex2 : ∃ a ∈ xs, f a = some v := by
        obtain ⟨a, ha, hv⟩ := hex
        cases ha with
        | head => rw [hf] at hv; cases hv
        | tail _ ha => exact ⟨a, ha, hv⟩
      simp [firstSome, hf]
      exact ih (fun a ha => hall a (List.mem_cons_of_mem _ ha)) hex2

theorem refErr_values {r : XML} {err : ParseError} (h : refErr r = some err) :
    err = .noneCitation ∨ err = .noneAuthorList := by
  unfold refErr at h
  cases h1 : find1 r "citation" with
  | none =>
    rw [h1] at h
    injection h with h
    exact .inl h.symm
  | some cit =>
    rw [h1] at h
    cases h2 : find1 r "authorList" with
    | none =>
      rw [h2] at h
      injection h with h
      exact .inr h.symm
    | some al => rw [h2] at h; cases h

theorem refErr_none {r : XML} (h : refErr r = none) :
    (∃ cit, find1 r "citation" = some cit) ∧ ∃ al, find1 r "authorList" = some al := by
  unfold refErr at h
  cases h1 : find1 r "citation" with
  | none => rw [h1] at h; cases h
  | some cit =>
    rw [h1] at h
    cases h2 : find1 r "authorList" with
    | none => rw [h2] at h; cases h
    | some al => exact ⟨⟨cit, rfl⟩, ⟨al, rfl⟩⟩

theorem entryErr_no_accession {e : XML} (h : findall e "accession" = []) :
    entryErr e = some .missingAccession := by
  unfold entryErr
  rw [h]

theorem entryErr_with_accession {e : XML} (h : findall e "accession" ≠ []) :
    entryErr e = firstSome refErr (findall e "reference") := by
  unfold entryErr
  cases hacc : findall e "accession" with
  | nil => exact absurd hacc h
  | cons a as => rfl

/-- Claim C3, amended: a document in which some `entry` has no `accession`
descendant always makes `parse` fail (no graph is returned, the whole document
is aborted); the error is the missing-required-field error provided no
malformed reference aborts the parse first (in particular whenever every
reference of the document has `citation` and `authorList`). -/
theorem claim_C3 (root : XML)
    (h : ∃ e ∈ findall root "entry", findall e "accession" = []) :
    (∃ err, parse root = .error err)
    ∧ ((∀ e ∈ findall root "entry", ∀ r ∈ findall e "reference", refErr r = none) →
        parse root = .error .missingAccession) := by
  obtain ⟨e, he, hacc⟩ := h
  constructor
  · have hne : entryErr e ≠ none := by
      rw [entryErr_no_accession hacc]
      intro hx
      cases hx
    obtain ⟨err, herr⟩ := firstSome_isSome entryErr he hne
    refine ⟨err, ?_⟩
    rw [parse_eq, show docErr root = some err from herr]
  · intro hall
    have hdoc : docErr root = some .missingAccession := by
      apply firstSome_const entryErr ParseError.missingAccession
      · intro e2 he2
        cases hacc2 : findall e2 "accession" with
        | nil => exact .inr (entryErr_no_accession hacc2)
        | cons a as =>
          left
          rw [entryErr_with_accession (by rw [hacc2]; exact List.cons_ne_nil _ _)]
          exact (firstSome_eq_none refErr).mpr (hall e2 he2)
      · exact ⟨e, he, entryErr_no_accession hacc⟩
    rw [parse_eq, hdoc]

/-- Claim C6, amended: when every `entry` has an `accession` and some
reference of some entry lacks `citation` or `authorList`, `parse` fails with
one of the two unhandled null-dereference errors (the `AttributeError` on
`citation.attrib` or the `TypeError` of iterating a `None` author list); no
recovery or skipping happens.  Without the accession hypothesis the parse can
fail with the missing-accession error instead. -/
theorem claim_C6 (root : XML)
    (hacc : ∀ e ∈ findall root "entry", findall e "accession" ≠ [])
    (h : ∃ e ∈ findall root "entry", ∃ r ∈ findall e "reference", refErr r ≠ none) :
    ∃ err, parse root = .error err ∧ (err = .noneCitation ∨ err = .noneAuthorList) := by
  obtain ⟨e, he, r, hr, hrerr⟩ := h
  have hee : entryErr e ≠ none := by
    rw [entryErr_with_accession (hacc e he)]
    intro hnone
    exact hrerr ((firstSome_eq_none refErr).mp hnone r hr)
  obtain ⟨err, herr⟩ := firstSome_isSome entryErr he hee
  obtain ⟨e2, he2, herr2⟩ := firstSome_mem entryErr herr
  rw [entryErr_with_accession (hacc e2 he2)] at herr2
  obtain ⟨r2, hr2, hrv⟩ := firstSome_mem refErr herr2
  refine ⟨err, ?_, refErr_values hrv⟩
  rw [parse_eq, show docErr root = some err from herr]

theorem namedAttrs_mem {nm : String} {ns : List Node} {a : String}
    (h : a ∈ namedAttrs nm ns) : ∃ n ∈ ns, n.name = nm ∧ n.attr = a := by
  obtain ⟨n, hn, ha⟩ := List.mem_map.mp h
  have hf := List.mem_filter.mp hn
  exact ⟨n, hf.1, by simpa using hf.2, ha⟩

theorem flatMap_congr {α β : Type} {l : List α} {f g : α → List β}
    (h : ∀ a ∈ l, f a = g a) : l.flatMap f = l.flatMap g := by
  induction l with
  | nil => rfl
  | cons a as ih =>
    rw [List.flatMap_cons, List.flatMap_cons, h a (List.mem_cons_self _ _),
      ih (fun a ha => h a (List.mem_cons_of_mem _ ha))]

theorem flatMap_const_singleton {α β : Type} (l : List α) (b : β) :
    l.flatMap (fun _ => [b]) = List.replicate l.length b := by
  induction l with
  | nil => rfl
  | cons a as ih => simp [List.flatMap_cons, ih, List.replicate_succ]

theorem eq_of_id_eq {ns : List Node} (hnd : (ns.map Node.id).Nodup) {a b : Node}
    (ha : a ∈ ns) (hb : b ∈ ns) (h : a.id = b.id) : a = b :=
  List.inj_on_of_nodup_map hnd ha hb h

theorem specGraph_inDeg (root : XML) {n : Node} (hn : n ∈ (specGraph root).nodes) :
    (specGraph root).inDeg n.id = if n.name == "Protein" then 0 else 1 := by
  have htgt : (specGraph root).edges.map Edge.tgt
      = ((specGraph root).nodes.filter (fun n => !(n.name == "Protein"))).map Node.id := by
    rw [specGraph_edges, specGraph_nodes]
    exact entriesD_tgts_filter root _ 0
  rw [inDeg_eq_count, htgt, count_filter_map_id _ (specGraph_ids_nodup root) hn]
  cases hx : n.name == "Protein" <;> simp [hx]

theorem specGraph_in_edge {root : XML} {n : Node} (hn : n ∈ (specGraph root).nodes)
    (hnp : (n.name == "Protein") = false) :
    ∃ ed ∈ (specGraph root).edges, ed.tgt = n.id := by
  have h1 : ((specGraph root).edges.filter (fun e => e.tgt == n.id)).length = 1 := by
    have := specGraph_inDeg root hn
    rw [hnp] at this
    exact this
  obtain ⟨ed, hed⟩ := List.length_eq_one.mp h1
  have hmem : ed ∈ (specGraph root).edges.filter (fun e => e.tgt == n.id) := by
    rw [hed]
    exact List.mem_cons_self _ _
  have hf := List.mem_filter.mp hmem
  exact ⟨ed, hf.1, by simpa using hf.2⟩

/-- Claim C10: an author element with no `name` attribute never makes the
parse fail — on every document whose entries all have accessions and whose
references all have `citation` and `authorList`, `parse` succeeds, the
`Author` node attributes are exactly `"name: <attribute or None>"` for every
author-list child in document order, and every author without a `name`
attribute yields an `Author` node whose attr is literally `"name: None"`. -/
theorem claim_C10 (root : XML)
    (hacc : ∀ e ∈ findall root "entry", findall e "accession" ≠ [])
    (href : ∀ e ∈ findall root "entry", ∀ r ∈ findall e "reference", refErr r = none) :
    ∃ g, parse root = .ok g
      ∧ namedAttrs "Author" g.nodes
          = (findall root "entry").flatMap (fun e => (findall e "reference").flatMap
              (fun r => (authorsOf r).map (fun a => "name: " ++ pyStrOpt (a.get "name"))))
      ∧ (∀ e ∈ findall root "entry", ∀ r ∈ findall e "reference", ∀ a ∈ authorsOf r,
          a.get "name" = none →
            ∃ n ∈ g.nodes, n.name = "Author" ∧ n.attr = "name: None")
      ∧ ∀ n ∈ g.nodes, n.name = "Author" →
          ∃ ed ∈ g.edges, ed.tgt = n.id ∧ ed.attr = "HAS_AUTHOR"
            ∧ ∃ sn ∈ g.nodes, sn.id = ed.src ∧ sn.name = "Reference" := by
  have hdoc : docErr root = none := by
    apply (firstSome_eq_none entryErr).mpr
    intro e he
    rw [entryErr_with_accession (hacc e he)]
    exact (firstSome_eq_none refErr).mpr (href e he)
  have hok : parse root = .ok (specGraph root) := by
    rw [parse_eq, hdoc]
  have hattrs : namedAttrs "Author" (specGraph root).nodes
      = (findall root "entry").flatMap (fun e => (findall e "reference").flatMap
          (fun r => (authorsOf r).map (fun a => "name: " ++ pyStrOpt (a.get "name")))) := by
    rw [specGraph_attrs_author]
    apply flatMap_congr
    intro e he
    rw [List.flatMap_map]
    apply flatMap_congr
    intro r hr
    obtain ⟨⟨cit, hc⟩, ⟨al, hal⟩⟩ := refErr_none (href e he r hr)
    unfold refDataT authorsOf
    rw [hal]
    rfl
  refine ⟨specGraph root, hok, hattrs, ?_, ?_⟩
  · intro e he r hr a ha hname
    have hmem : ("name: " ++ pyStrOpt (a.get "name"))
        ∈ namedAttrs "Author" (specGraph root).nodes := by
      rw [hattrs]
      exact List.mem_flatMap.mpr ⟨e, he, List.mem_flatMap.mpr
        ⟨r, hr, List.mem_map_of_mem _ ha⟩⟩
    rw [hname] at hmem
    obtain ⟨n, hn, hnm, hattr⟩ := namedAttrs_mem hmem
    exact ⟨n, hn, hnm, hattr⟩
  · intro n hn hname
    obtain ⟨ed, hed, htgt⟩ := specGraph_in_edge hn (by simp [hname])
    obtain ⟨sn, hsn, hs, tn, htn, ht, hk⟩ := specGraph_typed root ed hed
    have heq : tn = n :=
      eq_of_id_eq (specGraph_ids_nodup root) htn hn (by rw [ht, htgt])
    subst heq
    rcases hk with ⟨h1, _, _⟩ | ⟨h1, _, _⟩ | ⟨h1, _, _⟩ | ⟨h1, _, _⟩ | ⟨h1, h2, h3⟩ | ⟨h1, _, _⟩
    · rw [hname] at h1; exact absurd h1 (by decide)
    · rw [hname] at h1; exact absurd h1 (by decide)
    · rw [hname] at h1; exact absurd h1 (by decide)
    · rw [hname] at h1; exact absurd h1 (by decide)
    · exact ⟨ed, hed, htgt, h2, sn, hsn, hs, h3⟩
    · rw [hname] at h1; exact absurd h1 (by decide)

/-- Claim C7: with lookups scoped at the document root, an `Organism` node is
created once per entry exactly when both the scientific organism name and the
NCBI Taxonomy reference are found; its attr is exactly
`name: <scientific-name-text>\ntaxonomy_id: <id-attribute-value>` and its
inbound edge, from a `Protein` node, is labeled `IN_ORGANISM`; when either
lookup fails no `Organism` node and no `IN_ORGANISM` edge exists at all. -/
theorem claim_C7 (root : XML) (g : Graph) (h : parse root = .ok g) :
    (∀ sci tax, find_scientific_name root = some sci → find_taxonomy root = some tax →
        namedAttrs "Organism" g.nodes
          = List.replicate (findall root "entry").length
              ("name: " ++ pyStrOpt sci.text ++ "\ntaxonomy_id: " ++ pyStrOpt (tax.get "id"))
        ∧ ∀ n ∈ g.nodes, n.name = "Organism" →
            ∃ ed ∈ g.edges, ed.tgt = n.id ∧ ed.attr = "IN_ORGANISM"
              ∧ ∃ sn ∈ g.nodes, sn.id = ed.src ∧ sn.name = "Protein")
    ∧ ((find_scientific_name root = none ∨ find_taxonomy root = none) →
        g.nodes.filter (fun n => n.name == "Organism") = []
        ∧ g.edges.filter (fun ed => ed.attr == "IN_ORGANISM") = []) := by
  obtain ⟨hd, rfl⟩ := (parse_ok_iff root g).mp h
  constructor
  · intro sci tax hsci htax
    constructor
    · rw [specGraph_attrs_organism]
      have horg : organismAttr root
          = some ("name: " ++ pyStrOpt sci.text ++ "\ntaxonomy_id: " ++ pyStrOpt (tax.get "id")) := by
        unfold organismAttr
        rw [hsci, htax]
      rw [horg]
      simp only [Option.toList_some]
      exact flatMap_const_singleton _ _
    · intro n hn horgname
      obtain ⟨ed, hed, htgt⟩ := specGraph_in_edge hn (by simp [horgname])
      obtain ⟨sn, hsn, hs, tn, htn, ht, hk⟩ := specGraph_typed root ed hed
      have heq : tn = n :=
        eq_of_id_eq (specGraph_ids_nodup root) htn hn (by rw [ht, htgt])
      subst heq
      rcases hk with ⟨h1, _, _⟩ | ⟨h1, _, _⟩ | ⟨h1, h2, h3⟩ | ⟨h1, _, _⟩ | ⟨h1, _, _⟩ | ⟨h1, _, _⟩
      · rw [horgname] at h1; exact absurd h1 (by decide)
      · rw [horgname] at h1; exact absurd h1 (by decide)
      · exact ⟨ed, hed, htgt, h2, sn, hsn, hs, h3⟩
      · rw [horgname] at h1; exact absurd h1 (by decide)
      · rw [horgname] at h1; exact absurd h1 (by decide)
      · rw [horgname] at h1; exact absurd h1 (by decide)
  · intro hmiss
    have horg : organismAttr root = none := by
      unfold organismAttr
      rcases hmiss with hm | hm
      · rw [hm]
      · rw [hm]
        cases find_scientific_name root <;> rfl
    have hnod : (specGraph root).nodes.filter (fun n => n.name == "Organism") = [] := by
      have hattr := specGraph_attrs_organism root
      rw [horg] at hattr
      have hempty : ((findall root "entry").flatMap
          (fun _ => (Option.toList (α := String) none))) = [] := by
        induction (findall root "entry") with
        | nil => rfl
        | cons e es ih => simp [List.flatMap_cons, ih]
      rw [hempty] at hattr
      exact List.map_eq_nil_iff.mp hattr
    refine ⟨hnod, ?_⟩
    rw [List.filter_eq_nil_iff]
    intro ed hed
    simp only [beq_iff_eq]
    intro hattr
    obtain ⟨sn, hsn, hs, tn, htn, ht, hk⟩ := specGraph_typed root ed hed
    have htn2 : tn.name = "Organism" := by
      rcases hk with ⟨_, h2, _⟩ | ⟨_, h2, _⟩ | ⟨h1, _, _⟩ | ⟨_, h2, _⟩ | ⟨_, h2, _⟩ | ⟨_, h2, _⟩
      · rw [hattr] at h2; exact absurd h2 (by decide)
      · rcases h2 with h2 | h2 <;> (rw [hattr] at h2; exact absurd h2 (by decide))
      · exact h1
      · rw [hattr] at h2; exact absurd h2 (by decide)
      · rw [hattr] at h2; exact absurd h2 (by decide)
      · rw [hattr] at h2; exact absurd h2 (by decide)
    have : tn ∈ (specGraph root).nodes.filter (fun n => n.name == "Organism") :=
      List.mem_filter.mpr ⟨htn, by simp [htn2]⟩
    rw [hnod] at this
    cases this

/-- Claim C8: one `Feature` node is created per `feature` descendant of each
entry, in document order, with attr the newline-joined `key: value` pairs of
the attributes on the `feature` element, and its inbound edge from the
entry's `Protein` node is labeled `HAS_REFERENCE` — the same label used for
reference edges. -/
theorem claim_C8 (root : XML) (g : Graph) (h : parse root = .ok g) :
    namedAttrs "Feature" g.nodes
      = ((findall root "entry").flatMap (fun e => findall e "feature")).map
          (fun f => attribJoin f.attrib)
    ∧ ∀ n ∈ g.nodes, n.name = "Feature" →
        ∃ ed ∈ g.edges, ed.tgt = n.id ∧ ed.attr = "HAS_REFERENCE"
          ∧ ∃ sn ∈ g.nodes, sn.id = ed.src ∧ sn.name = "Protein" := by
  obtain ⟨hd, rfl⟩ := (parse_ok_iff root g).mp h
  constructor
  · rw [specGraph_attrs_feature, List.map_flatMap]
    rfl
  · intro n hn hfeat
    obtain ⟨ed, hed, htgt⟩ := specGraph_in_edge hn (by simp [hfeat])
    obtain ⟨sn, hsn, hs, tn, htn, ht, hk⟩ := specGraph_typed root ed hed
    have heq : tn = n :=
      eq_of_id_eq (specGraph_ids_nodup root) htn hn (by rw [ht, htgt])
    subst heq
    rcases hk with ⟨h1, _, _⟩ | ⟨h1, _, _⟩ | ⟨h1, _, _⟩ | ⟨h1, _, _⟩ | ⟨h1, _, _⟩ | ⟨h1, h2, h3⟩
    · rw [hfeat] at h1; exact absurd h1 (by decide)
    · rw [hfeat] at h1; exact absurd h1 (by decide)
    · rw [hfeat] at h1; exact absurd h1 (by decide)
    · rw [hfeat] at h1; exact absurd h1 (by decide)
    · rw [hfeat] at h1; exact absurd h1 (by decide)
    · exact ⟨ed, hed, htgt, h2, sn, hsn, hs, h3⟩

/-! Out-degree accounting for the reference blocks. -/

theorem blockE_srcs (p : Nat) (rel : String) (as : List String) :
    ∀ c, ∀ ed ∈ blockE p c rel as, ed.src = p := by
  induction as with
  | nil => intro c ed h; cases h
  | cons a as ih =>
    intro c ed h
    cases h with
    | head => rfl
    | tail _ h => exact ih (c + 1) ed h

theorem blockE_map_src (p : Nat) (rel : String) (as : List String) :
    ∀ c, (blockE p c rel as).map Edge.src = List.replicate as.length p := by
  induction as with
  | nil => intro c; rfl
  | cons a as ih => intro c; simp [blockE, List.replicate_succ, ih (c + 1)]

theorem seg1_tgt_bounds {d : Delta} {c : Nat} (h : seg1 d c) :
    ∀ ed ∈ d.2, c ≤ ed.tgt ∧ ed.tgt < c + d.1.length := by
  intro ed hed
  have hm : ed.tgt ∈ d.1.map Node.id := by
    rw [← h.2]
    exact List.mem_map_of_mem _ hed
  rw [h.1] at hm
  exact List.mem_range'_1.mp hm

theorem refsD_cons_length (p c : Nat) (rd0 : String × List String)
    (rds : List (String × List String)) :
    (refsD p c (rd0 :: rds)).1.length
      = 1 + rd0.2.length + (refsD p (c + 1 + rd0.2.length) rds).1.length := by
  show ((⟨c, "Reference", rd0.1⟩ :: blockN (c + 1) "Author" rd0.2)
      ++ (refsD p (c + 1 + rd0.2.length) rds).1).length = _
  rw [List.length_append, List.length_cons, blockN_length]
  omega

theorem refsD_srcs (p : Nat) (rds : List (String × List String)) :
    ∀ c, ∀ ed ∈ (refsD p c rds).2,
      ed.src = p ∨ (c ≤ ed.src ∧ ed.src < c + (refsD p c rds).1.length) := by
  induction rds with
  | nil => intro c ed h; cases h
  | cons rd rds ih =>
    intro c ed h
    have hlen := refsD_cons_length p c rd rds
    rcases List.mem_append.mp h with h | h
    · cases h with
      | head => exact .inl rfl
      | tail _ h =>
        right
        rw [blockE_srcs c "HAS_AUTHOR" rd.2 (c + 1) ed h, hlen]
        omega
    · rcases ih (c + 1 + rd.2.length) ed h with h | ⟨h1, h2⟩
      · exact .inl h
      · right
        rw [hlen]
        omega

theorem count_eq_zero_of_all_ne {l : List Edge} {ρ : Nat}
    (h : ∀ ed ∈ l, ed.src ≠ ρ) : (l.map Edge.src).count ρ = 0 := by
  rw [List.count_eq_zero]
  intro hc
  obtain ⟨ed, hed, hs⟩ := List.mem_map.mp hc
  exact h ed hed hs

theorem filter_tgt_eq_nil {l : List Edge} {ρ : Nat}
    (h : ∀ ed ∈ l, ed.tgt ≠ ρ) : l.filter (fun ed => ed.tgt == ρ) = [] := by
  rw [List.filter_eq_nil_iff]
  intro ed hed
  simp [h ed hed]

theorem refsD_facts (p : Nat) (rds : List (String × List String)) :
    ∀ c, p < c → ∀ rd ∈ rds,
      ∃ ρ, c ≤ ρ ∧ ρ < c + (refsD p c rds).1.length
        ∧ (⟨ρ, "Reference", rd.1⟩ : Node) ∈ (refsD p c rds).1
        ∧ ((refsD p c rds).2.map Edge.src).count ρ = rd.2.length
        ∧ (refsD p c rds).2.filter (fun ed => ed.tgt == ρ) = [⟨p, ρ, "HAS_REFERENCE"⟩] := by
  induction rds with
  | nil => intro c hpc rd hrd; cases hrd
  | cons rd0 rds ih =>
    intro c hpc rd hrd
    have hlen := refsD_cons_length p c rd0 rds
    have hedges : (refsD p c (rd0 :: rds)).2
        = (⟨p, c, "HAS_REFERENCE"⟩ :: blockE c (c + 1) "HAS_AUTHOR" rd0.2)
          ++ (refsD p (c + 1 + rd0.2.length) rds).2 := rfl
    have hmap : ((⟨p, c, "HAS_REFERENCE"⟩ : Edge) :: blockE c (c + 1) "HAS_AUTHOR" rd0.2).map Edge.src
        = p :: List.replicate rd0.2.length c := by
      rw [List.map_cons, blockE_map_src c "HAS_AUTHOR" rd0.2 (c + 1)]
    have hblockb : ∀ ed ∈ blockE c (c + 1) "HAS_AUTHOR" rd0.2,
        c + 1 ≤ ed.tgt ∧ ed.tgt < c + 1 + rd0.2.length := by
      intro ed hed
      have hb := seg1_tgt_bounds (seg1_blockD c "Author" "HAS_AUTHOR" rd0.2 (c + 1)) ed hed
      simp only [blockD, blockN_length] at hb
      exact hb
    cases hrd with
    | head =>
      refine ⟨c, Nat.le_refl c, by rw [hlen]; omega,
        List.mem_append_left _ (List.mem_cons_self _ _), ?_, ?_⟩
      · have hzero : (((refsD p (c + 1 + rd0.2.length) rds).2).map Edge.src).count c = 0 := by
          apply count_eq_zero_of_all_ne
          intro ed hed
          rcases refsD_srcs p rds (c + 1 + rd0.2.length) ed hed with hs | ⟨hs1, hs2⟩ <;> omega
        rw [hedges, List.map_append, List.count_append, hmap,
          List.count_cons_of_ne (by omega), List.count_replicate_self, hzero]
        omega
      · have hb : (blockE c (c + 1) "HAS_AUTHOR" rd0.2).filter (fun ed => ed.tgt == c) = [] := by
          apply filter_tgt_eq_nil
          intro ed hed
          have := hblockb ed hed
          omega
        have hr : ((refsD p (c + 1 + rd0.2.length) rds).2).filter (fun ed => ed.tgt == c) = [] := by
          apply filter_tgt_eq_nil
          intro ed hed
          have := seg1_tgt_bounds (seg1_refsD p rds (c + 1 + rd0.2.length)) ed hed
          omega
        rw [hedges, List.filter_append, List.filter_cons_of_pos (by simp), hb, hr]
        rfl
    | tail _ hrd =>
      obtain ⟨ρ, hb1, hb2, hmem, hcount, hfilter⟩ :=
        ih (c + 1 + rd0.2.length) (by omega) rd hrd
      refine ⟨ρ, by omega, by rw [hlen]; omega,
        List.mem_append_right _ hmem, ?_, ?_⟩
      · rw [hedges, List.map_append, List.count_append, hmap,
          List.count_cons_of_ne (by omega), List.count_replicate,
          if_neg (by simp; omega), hcount]
        omega
      · have hb : (blockE c (c + 1) "HAS_AUTHOR" rd0.2).filter (fun ed => ed.tgt == ρ) = [] := by
          apply filter_tgt_eq_nil
          intro ed hed
          have := hblockb ed hed
          omega
        rw [hedges, List.filter_append, List.filter_cons_of_neg (by simp; omega), hb, hfilter]
        rfl

theorem optD_srcs (p c : Nat) (nm rel : String) (o : Option String) :
    ∀ ed ∈ (optD p c nm rel o).2, ed.src = p :=
  fun ed h => (optD_typed p c nm rel o ed h).1

theorem entryD_length_pos (root e : XML) (c : Nat) : 0 < (entryD root e c).1.length := by
  rw [entryD_eq_rest]
  show 0 < ((⟨c, "Protein", proteinAttr e⟩ : Node) :: (entryRest root e c).1).length
  simp

theorem entryD_length_eq (root e : XML) (c : Nat) :
    (entryD root e c).1.length = (entryRest root e c).1.length + 1 := by
  rw [entryD_eq_rest]
  show ((⟨c, "Protein", proteinAttr e⟩ : Node) :: (entryRest root e c).1).length = _
  simp

theorem entryD_tgt_bounds (root e : XML) (c : Nat) :
    ∀ ed ∈ (entryD root e c).2, c + 1 ≤ ed.tgt ∧ ed.tgt < c + (entryD root e c).1.length := by
  intro ed hed
  have hb := seg1_tgt_bounds (seg1_entryRest root e c) ed hed
  have hlen := entryD_length_eq root e c
  omega

theorem entryD_src_bounds (root e : XML) (c : Nat) :
    ∀ ed ∈ (entryD root e c).2, c ≤ ed.src ∧ ed.src < c + (entryD root e c).1.length := by
  intro ed hed
  obtain ⟨sn, hsn, hs, _⟩ := entryD_typed root e c ed hed
  have hm : sn.id ∈ (entryD root e c).1.map Node.id := List.mem_map_of_mem _ hsn
  rw [entryD_ids] at hm
  have hb := List.mem_range'_1.mp hm
  omega

theorem entry_shape_ref_facts (p c5 : Nat) (rds : List (String × List String))
    (pn : Node) (N1 N2 N3 N4 N6 : List Node) (E1 E2 E3 E4 E6 : List Edge)
    (hp : p < c5)
    (hc5 : c5 = p + 1 + N1.length + N2.length + N3.length + N4.length)
    (hs1 : ∀ ed ∈ E1, ed.src = p) (hs2 : ∀ ed ∈ E2, ed.src = p)
    (hs3 : ∀ ed ∈ E3, ed.src = p) (hs4 : ∀ ed ∈ E4, ed.src = p)
    (hs6 : ∀ ed ∈ E6, ed.src = p)
    (ht1 : ∀ ed ∈ E1, ed.tgt < c5) (ht2 : ∀ ed ∈ E2, ed.tgt < c5)
    (ht3 : ∀ ed ∈ E3, ed.tgt < c5) (ht4 : ∀ ed ∈ E4, ed.tgt < c5)
    (ht6 : ∀ ed ∈ E6, c5 + (refsD p c5 rds).1.length ≤ ed.tgt)
    {rd : String × List String} (hrd : rd ∈ rds) :
    ∃ ρ, p < ρ
      ∧ ρ < p + (pn :: (N1 ++ (N2 ++ (N3 ++ (N4 ++ ((refsD p c5 rds).1 ++ N6)))))).length
      ∧ (⟨ρ, "Reference", rd.1⟩ : Node)
          ∈ pn :: (N1 ++ (N2 ++ (N3 ++ (N4 ++ ((refsD p c5 rds).1 ++ N6)))))
      ∧ ((E1 ++ (E2 ++ (E3 ++ (E4 ++ ((refsD p c5 rds).2 ++ E6))))).map Edge.src).count ρ
          = rd.2.length
      ∧ (E1 ++ (E2 ++ (E3 ++ (E4 ++ ((refsD p c5 rds).2 ++ E6))))).filter
          (fun ed => ed.tgt == ρ) = [⟨p, ρ, "HAS_REFERENCE"⟩] := by
  obtain ⟨ρ, hb1, hb2, hmem, hcount, hfilter⟩ := refsD_facts p rds c5 hp rd hrd
  have htotal : (pn :: (N1 ++ (N2 ++ (N3 ++ (N4 ++ ((refsD p c5 rds).1 ++ N6)))))).length
      = 1 + (N1.length + (N2.length + (N3.length + (N4.length
        + ((refsD p c5 rds).1.length + N6.length))))) := by
    simp [List.length_append]
    omega
  refine ⟨ρ, by omega, by omega, ?_, ?_, ?_⟩
  · exact List.mem_cons_of_mem _ (List.mem_append_right _ (List.mem_append_right _
      (List.mem_append_right _ (List.mem_append_right _ (List.mem_append_left _ hmem)))))
  · have z1 : (E1.map Edge.src).count ρ = 0 :=
      count_eq_zero_of_all_ne (fun ed hed => by have := hs1 ed hed; omega)
    have z2 : (E2.map Edge.src).count ρ = 0 :=
      count_eq_zero_of_all_ne (fun ed hed => by have := hs2 ed hed; omega)
    have z3 : (E3.map Edge.src).count ρ = 0 :=
      count_eq_zero_of_all_ne (fun ed hed => by have := hs3 ed hed; omega)
    have z4 : (E4.map Edge.src).count ρ = 0 :=
      count_eq_zero_of_all_ne (fun ed hed => by have := hs4 ed hed; omega)
    have z6 : (E6.map Edge.src).count ρ = 0 :=
      count_eq_zero_of_all_ne (fun ed hed => by have := hs6 ed hed; omega)
    simp only [List.map_append, List.count_append]
    rw [z1, z2, z3, z4, z6, hcount]
    omega
  · have f1 : E1.filter (fun ed => ed.tgt == ρ) = [] :=
      filter_tgt_eq_nil (fun ed hed => by have := ht1 ed hed; omega)
    have f2 : E2.filter (fun ed => ed.tgt == ρ) = [] :=
      filter_tgt_eq_nil (fun ed hed => by have := ht2 ed hed; omega)
    have f3 : E3.filter (fun ed => ed.tgt == ρ) = [] :=
      filter_tgt_eq_nil (fun ed hed => by have := ht3 ed hed; omega)
    have f4 : E4.filter (fun ed => ed.tgt == ρ) = [] :=
      filter_tgt_eq_nil (fun ed hed => by have := ht4 ed hed; omega)
    have f6 : E6.filter (fun ed => ed.tgt == ρ) = [] :=
      filter_tgt_eq_nil (fun ed hed => by have := ht6 ed hed; omega)
    simp only [List.filter_append]
    rw [f1, f2, f3, f4, f6, hfilter]
    rfl

theorem entryD_ref_facts (root e : XML) (c : Nat) {rd : String × List String}
    (hrd : rd ∈ (findall e "reference").map refDataT) :
    ∃ ρ, c < ρ ∧ ρ < c + (entryD root e c).1.length
      ∧ (⟨ρ, "Reference", rd.1⟩ : Node) ∈ (entryD root e c).1
      ∧ ((entryD root e c).2.map Edge.src).count ρ = rd.2.length
      ∧ (entryD root e c).2.filter (fun ed => ed.tgt == ρ) = [⟨c, ρ, "HAS_REFERENCE"⟩] := by
  simp only [entryD, dapp, List.nil_append, List.singleton_append]
  refine entry_shape_ref_facts c _ _ _ _ _ _ _ _ _ _ _ _ _
    ?_ ?_
    (optD_srcs _ _ _ _ _) (optD_srcs _ _ _ _ _) (blockE_srcs _ _ _ _)
    (optD_srcs _ _ _ _ _) (blockE_srcs _ _ _ _)
    ?_ ?_ ?_ ?_ ?_ hrd
  · omega
  · simp only [blockD, blockN_length]
  · intro ed hed
    have := seg1_tgt_bounds (seg1_optD _ _ _ _ _) ed hed
    omega
  · intro ed hed
    have := seg1_tgt_bounds (seg1_optD _ _ _ _ _) ed hed
    omega
  · intro ed hed
    have hb := seg1_tgt_bounds (seg1_blockD _ "Gene" _ _ _) ed hed
    simp only [blockD, blockN_length] at hb ⊢
    omega
  · intro ed hed
    have := seg1_tgt_bounds (seg1_optD _ _ _ _ _) ed hed
    omega
  · intro ed hed
    have hb := seg1_tgt_bounds (seg1_blockD _ "Feature" _ _ _) ed hed
    simp only [blockD, blockN_length] at hb ⊢
    omega

theorem entriesD_edge_bounds (root : XML) (es : List XML) :
    ∀ c, ∀ ed ∈ (entriesD root c es).2,
      c ≤ ed.src ∧ ed.src < c + (entriesD root c es).1.length
      ∧ c < ed.tgt ∧ ed.tgt < c + (entriesD root c es).1.length := by
  induction es with
  | nil => intro c ed h; cases h
  | cons e es ih =>
    intro c ed h
    have hlen : (entriesD root c (e :: es)).1.length
        = (entryD root e c).1.length
          + (entriesD root (c + (entryD root e c).1.length) es).1.length := by
      show ((entryD root e c).1 ++ _).length = _
      rw [List.length_append]
    rcases List.mem_append.mp h with h | h
    · have h1 := entryD_src_bounds root e c ed h
      have h2 := entryD_tgt_bounds root e c ed h
      omega
    · have := ih (c + (entryD root e c).1.length) ed h
      omega

theorem entriesD_ref_facts (root : XML) (es : List XML) :
    ∀ c, ∀ e ∈ es, ∀ rd ∈ (findall e "reference").map refDataT,
      ∃ ρ π, c ≤ ρ ∧ ρ < c + (entriesD root c es).1.length
        ∧ (⟨ρ, "Reference", rd.1⟩ : Node) ∈ (entriesD root c es).1
        ∧ (⟨π, "Protein", proteinAttr e⟩ : Node) ∈ (entriesD root c es).1
        ∧ ((entriesD root c es).2.map Edge.src).count ρ = rd.2.length
        ∧ (entriesD root c es).2.filter (fun ed => ed.tgt == ρ)
            = [⟨π, ρ, "HAS_REFERENCE"⟩] := by
  induction es with
  | nil => intro c e he; cases he
  | cons e0 es ih =>
    intro c e he rd hrd
    have hlen : (entriesD root c (e0 :: es)).1.length
        = (entryD root e0 c).1.length
          + (entriesD root (c + (entryD root e0 c).1.length) es).1.length := by
      show ((entryD root e0 c).1 ++ _).length = _
      rw [List.length_append]
    have hE : (entriesD root c (e0 :: es)).2
        = (entryD root e0 c).2
          ++ (entriesD root (c + (entryD root e0 c).1.length) es).2 := rfl
    cases he with
    | head =>
      obtain ⟨ρ, hb1, hb2, hmem, hcount, hfilter⟩ := entryD_ref_facts root e0 c hrd
      have hpn : (⟨c, "Protein", proteinAttr e0⟩ : Node) ∈ (entryD root e0 c).1 := by
        simp only [entryD, dapp, List.singleton_append]
        exact List.mem_cons_self _ _
      refine ⟨ρ, c, by omega, by omega, List.mem_append_left _ hmem,
        List.mem_append_left _ hpn, ?_, ?_⟩
      · have hz : (((entriesD root (c + (entryD root e0 c).1.length) es).2).map
            Edge.src).count ρ = 0 := by
          apply count_eq_zero_of_all_ne
          intro ed hed
          have := entriesD_edge_bounds root es (c + (entryD root e0 c).1.length) ed hed
          omega
        rw [hE, List.map_append, List.count_append, hcount, hz]
        omega
      · have hz : ((entriesD root (c + (entryD root e0 c).1.length) es).2).filter
            (fun ed => ed.tgt == ρ) = [] := by
          apply filter_tgt_eq_nil
          intro ed hed
          have := entriesD_edge_bounds root es (c + (entryD root e0 c).1.length) ed hed
          omega
        rw [hE, List.filter_append, hfilter, hz]
        rfl
    | tail _ he =>
      obtain ⟨ρ, π, hb1, hb2, hmem, hpn, hcount, hfilter⟩ :=
        ih (c + (entryD root e0 c).1.length) e he rd hrd
      refine ⟨ρ, π, by omega, by omega, List.mem_append_right _ hmem,
        List.mem_append_right _ hpn, ?_, ?_⟩
      · have hz : (((entryD root e0 c).2).map Edge.src).count ρ = 0 := by
          apply count_eq_zero_of_all_ne
          intro ed hed
          have := entryD_src_bounds root e0 c ed hed
          omega
        rw [hE, List.map_append, List.count_append, hz, hcount]
        omega
      · have hz : ((entryD root e0 c).2).filter (fun ed => ed.tgt == ρ) = [] := by
          apply filter_tgt_eq_nil
          intro ed hed
          have := entryD_tgt_bounds root e0 c ed hed
          omega
        rw [hE, List.filter_append, hz, hfilter]
        rfl

/-- Claim C5: for every reference whose author list has exactly 3 children,
the corresponding `Reference` node has out-degree exactly 3, all its outgoing
edges are labeled `HAS_AUTHOR` and target `Author` nodes, and it has exactly
one inbound edge, labeled `HAS_REFERENCE`, from its entry's `Protein` node. -/
theorem claim_C5 (root : XML) (g : Graph) (e r al : XML)
    (h : parse root = .ok g) (he : e ∈ findall root "entry")
    (hr : r ∈ findall e "reference")
    (hal : find1 r "authorList" = some al) (h3 : al.children.length = 3) :
    ∃ n ∈ g.nodes, n.name = "Reference" ∧ g.outDeg n.id = 3
      ∧ (∀ ed ∈ g.edges, ed.src = n.id →
          ed.attr = "HAS_AUTHOR" ∧ ∃ an ∈ g.nodes, an.id = ed.tgt ∧ an.name = "Author")
      ∧ ∃ pn ∈ g.nodes, pn.name = "Protein"
          ∧ g.edges.filter (fun ed => ed.tgt == n.id) = [⟨pn.id, n.id, "HAS_REFERENCE"⟩] := by
  obtain ⟨hd, rfl⟩ := (parse_ok_iff root g).mp h
  have hrd : refDataT r ∈ (findall e "reference").map refDataT :=
    List.mem_map_of_mem refDataT hr
  obtain ⟨ρ, π, hb1, hb2, hmem, hpn, hcount, hfilter⟩ :=
    entriesD_ref_facts root (findall root "entry") 0 e he (refDataT r) hrd
  have hlen3 : (refDataT r).2.length = 3 := by
    unfold refDataT
    rw [hal]
    simp [h3]
  refine ⟨⟨ρ, "Reference", (refDataT r).1⟩, hmem, rfl, ?_, ?_, ?_⟩
  · rw [outDeg_eq_count]
    rw [specGraph_edges]
    show ((entriesD root 0 (findall root "entry")).2.map Edge.src).count ρ = 3
    rw [hcount, hlen3]
  · intro ed hed hsrc
    obtain ⟨sn, hsn, hs, tn, htn, ht, hk⟩ := specGraph_typed root ed hed
    have hsneq : sn = ⟨ρ, "Reference", (refDataT r).1⟩ := by
      apply eq_of_id_eq (specGraph_ids_nodup root) hsn hmem
      rw [hs, hsrc]
    rcases hk with ⟨htn1, _, hsn1⟩ | ⟨htn1, _, hsn1⟩ | ⟨htn1, _, hsn1⟩
      | ⟨htn1, _, hsn1⟩ | ⟨htn1, hattr, hsn1⟩ | ⟨htn1, _, hsn1⟩
    · rw [hsneq] at hsn1; simp at hsn1
    · rw [hsneq] at hsn1; simp at hsn1
    · rw [hsneq] at hsn1; simp at hsn1
    · rw [hsneq] at hsn1; simp at hsn1
    · exact ⟨hattr, tn, htn, ht, htn1⟩
    · rw [hsneq] at hsn1; simp at hsn1
  · refine ⟨⟨π, "Protein", proteinAttr e⟩, hpn, rfl, ?_⟩
    rw [specGraph_edges]
    exact hfilter

theorem desc_children (x : XML) : x.desc = XML.descList x.children := by
  cases x
  rfl

/-- Claim C9, amended: in a document whose only entry has
`<accession>P12345</accession>` as its only child and in which the
document-root lookups (full name, gene names, organism) find nothing, the
graph is exactly one `Protein` node with attr `id: P12345` and no edges, so
that node has zero outgoing edges.  Content of other entries can otherwise
attach `FullName`/`Gene`/`Organism` children to this protein via the
root-scoped lookups. -/
theorem claim_C9 (root e : XML)
    (hent : findall root "entry" = [e])
    (hch : e.children = [XML.mk "accession" [] (some "P12345") []])
    (hfn : find_full_name root = none)
    (hpr : find_primary_name root = none)
    (hsyn : findall_gene_name root "synonym" = [])
    (horg : find_scientific_name root = none ∨ find_taxonomy root = none) :
    parse root = .ok ⟨[⟨0, "Protein", "id: P12345"⟩], []⟩
    ∧ Graph.outDeg ⟨[⟨0, "Protein", "id: P12345"⟩], []⟩ 0 = 0 := by
  have hacc : findall e "accession" = [XML.mk "accession" [] (some "P12345") []] := by
    unfold findall
    rw [desc_children, hch]
    rfl
  have hrefs : findall e "reference" = [] := by
    unfold findall
    rw [desc_children, hch]
    rfl
  have hfeat : findall e "feature" = [] := by
    unfold findall
    rw [desc_children, hch]
    rfl
  have hdoc : docErr root = none := by
    unfold docErr
    rw [hent]
    simp [firstSome, entryErr, hacc, hrefs]
  have horgattr : organismAttr root = none := by
    unfold organismAttr
    rcases horg with h | h
    · rw [h]
    · rw [h]
      cases find_scientific_name root <;> rfl
  refine ⟨?_, rfl⟩
  rw [parse_eq, hdoc]
  have hentry : entryD root e 0 = ([⟨0, "Protein", "id: P12345"⟩], []) := by
    unfold entryD
    simp [fullNameAttr, hfn, primaryAttr, hpr, synonymAttrs, hsyn, horgattr, hrefs, hfeat,
      featureAttrs, optD, blockD, blockN, blockE, refsD, dapp, proteinAttr, hacc, pyStrOpt,
      XML.text]
  unfold specGraph
  rw [hent]
  have hes : entriesD root 0 [e] = ([⟨0, "Protein", "id: P12345"⟩], []) := by
    show dapp (entryD root e 0) (entriesD root (0 + (entryD root e 0).1.length) []) = _
    rw [hentry]
    rfl
  rw [hes]

/-- Claim C9, counterexample to the claim as stated: in `c9doc` the first
entry's only child is `<accession>P12345</accession>`, yet its `Protein`
node has out-degree 1 (a `FullName` child leaked in from the second entry
through the document-root lookup), not 0. -/
theorem claim_C9_counterexample :
    (findall c9doc "entry").head? = some c9e1
    ∧ c9e1.children = [XML.mk "accession" [] (some "P12345") []]
    ∧ parse c9doc = .ok c9graph
    ∧ c9graph.nodes.head? = some ⟨0, "Protein", "id: P12345"⟩
    ∧ Graph.outDeg c9graph 0 = 1 :=
  ⟨rfl, rfl, rfl, rfl, rfl⟩

/-- Claim C3, counterexample to the claim as stated: `c3doc` contains an
entry with no `accession` descendant, yet `parse` raises the
citation-`AttributeError` of the earlier malformed reference, not the
missing-required-field error. -/
theorem claim_C3_counterexample :
    ((findall c3doc "entry").any (fun e => (findall e "accession").isEmpty)) = true
    ∧ parse c3doc = .error ParseError.noneCitation
    ∧ ParseError.noneCitation ≠ ParseError.missingAccession :=
  ⟨rfl, rfl, by decide⟩

/-- Claim C6, counterexample to the claim as stated: `c6doc` contains a
reference lacking a `citation` descendant, yet `parse` fails with the
missing-accession error of the same entry (the accession is parsed first),
not a null-dereference error. -/
theorem claim_C6_counterexample :
    ((findall c6doc "entry").any
        (fun e => (findall e "reference").any (fun r => !(refErr r).isNone))) = true
    ∧ parse c6doc = .error ParseError.missingAccession
    ∧ ParseError.missingAccession ≠ ParseError.noneCitation
    ∧ ParseError.missingAccession ≠ ParseError.noneAuthorList :=
  ⟨rfl, rfl, by decide, by decide⟩

/-! Witnesses: each claim theorem evaluated at a concrete document. -/

theorem claim_C1_witness :
    (wGraph.nodes.filter (fun n => n.name == "Protein")).length
        = (findall wDoc "entry").length
    ∧ (wGraph.nodes.map Node.id).Nodup :=
  claim_C1 wDoc wGraph rfl

theorem claim_C2_witness :
    (∀ n ∈ c9graph.nodes, c9graph.inDeg n.id = if n.name == "Protein" then 0 else 1)
    ∧ (∀ ed ∈ c9graph.edges, ∃ n ∈ c9graph.nodes, n.id = ed.tgt) :=
  claim_C2 c9doc c9graph rfl

theorem claim_C3_witness :
    parse w3doc = .error ParseError.missingAccession := by
  have h := claim_C3 w3doc ⟨.mk "entry" [] none [], List.mem_cons_self _ _, rfl⟩
  exact h.2 (by decide)

theorem claim_C4_witness :
    fullNameAttr c9doc = some "name: Some protein" :=
  (claim_C4 c9doc c9graph rfl ⟨1, "FullName", "name: Some protein"⟩
    (List.mem_cons_of_mem _ (List.mem_cons_self _ _))).1 rfl

theorem claim_C5_witness :
    ∃ n ∈ w5graph.nodes, n.name = "Reference" ∧ w5graph.outDeg n.id = 3
      ∧ (∀ ed ∈ w5graph.edges, ed.src = n.id →
          ed.attr = "HAS_AUTHOR" ∧ ∃ an ∈ w5graph.nodes, an.id = ed.tgt ∧ an.name = "Author")
      ∧ ∃ pn ∈ w5graph.nodes, pn.name = "Protein"
          ∧ w5graph.edges.filter (fun ed => ed.tgt == n.id)
              = [⟨pn.id, n.id, "HAS_REFERENCE"⟩] :=
  claim_C5 w5doc w5graph w5entry w5ref
    (.mk "authorList" [] none
      [.mk "person" [("name", "Alice")] none [],
       .mk "person" [("name", "Bob")] none [],
       .mk "person" [] none []])
    rfl (List.mem_cons_self _ _) (List.mem_cons_self _ _) rfl rfl

theorem claim_C6_witness :
    parse w6doc = .error ParseError.noneCitation
    ∨ parse w6doc = .error ParseError.noneAuthorList := by
  obtain ⟨err, herr, hv⟩ := claim_C6 w6doc
    (by
      intro e he
      have hent : findall w6doc "entry"
          = [XML.mk "entry" [] none [accEl "A", XML.mk "reference" [] none []]] := rfl
      rw [hent, List.mem_singleton] at he
      subst he
      exact List.cons_ne_nil _ _)
    ⟨.mk "entry" [] none [accEl "A", .mk "reference" [] none []], List.mem_cons_self _ _,
     .mk "reference" [] none [], List.mem_cons_self _ _,
     by decide⟩
  rcases hv with h | h
  · rw [h] at herr
    exact .inl herr
  · rw [h] at herr
    exact .inr herr

theorem claim_C7_witness :
    namedAttrs "Organism" w7graph.nodes = ["name: Homo sapiens\ntaxonomy_id: 9606"] := by
  have h := (claim_C7 w7doc w7graph rfl).1
    (XML.mk "name" [("type", "scientific")] (some "Homo sapiens") [])
    (XML.mk "dbReference" [("type", "NCBI Taxonomy"), ("id", "9606")] none [])
    rfl rfl
  rw [h.1]
  rfl

theorem claim_C8_witness :
    namedAttrs "Feature" w8graph.nodes = ["type: chain\nid: PRO_1"] := by
  have h := (claim_C8 w8doc w8graph rfl).1
  rw [h]
  rfl

theorem claim_C9_witness :
    parse w9doc = .ok ⟨[⟨0, "Protein", "id: P12345"⟩], []⟩
    ∧ Graph.outDeg ⟨[⟨0, "Protein", "id: P12345"⟩], []⟩ 0 = 0 :=
  claim_C9 w9doc w9e rfl rfl rfl rfl rfl (.inl rfl)

theorem claim_C10_witness :
    ∃ n ∈ w5graph.nodes, n.name = "Author" ∧ n.attr = "name: None" := by
  obtain ⟨g, hok, hattrs, hnone, hedge⟩ := claim_C10 w5doc
    (by
      intro e he
      have hent : findall w5doc "entry" = [w5entry] := rfl
      rw [hent, List.mem_singleton] at he
      subst he
      exact List.cons_ne_nil _ _)
    (by decide)
  have hg : g = w5graph := by
    have hw : parse w5doc = .ok w5graph := rfl
    rw [hw] at hok
    injection hok with h
    exact h.symm
  subst hg
  exact hnone w5entry (List.mem_cons_self _ _) w5ref
    (List.mem_cons_self _ _)
    (XML.mk "person" [] none [])
    (List.mem_cons_of_mem _ (List.mem_cons_of_mem _ (List.mem_cons_self _ _)))
    rfl

end UniProt
